import Mathlib

/-!
Shallow embedding of the coalescing SPSC ring buffer from
`src/ring/spsc_coalescing_ring_buffer.rs` (the `ring` module, which is the
implementation the crate's documentation points at).

The Rust code is single-producer / single-consumer; every claim we settle
here concerns a single operation (or a sequence of operations) executed
without a concurrent thread, so each atomic load collapses to a plain read
of the corresponding field and the `size()` consistent-read loop returns
`next_write - last_read - 1` on its first iteration.  The one genuinely
concurrent code path - the coalesce-after-claim race in `offer` - is
embedded separately (`offer_racy`) with the value of the consumer's
concurrently published `first_write` passed in explicitly, so that the
producer's code on that path can be examined.

Counters are `usize` in Rust; they are modelled as `Nat`.  The spec states
they never wrap in practice, and every subtraction performed by the code
(`size`, `claim_up_to - 1`) happens on operands where the Rust result and
the truncated `Nat` result agree in all states the theorems speak about.
Slot vectors are modelled as `List`s indexed through `getD`; all indexing
in the code is through `mask`, which keeps indices below the vector length
in every well-formed state.
-/

/-- `KeyHolder` from the source: a slot's key is empty, a real key, or the
marker used by `offer_value_only` entries (never coalesced). -/
inductive KeyHolder (K : Type) where
  | Empty : KeyHolder K
  | NonEmpty : K → KeyHolder K
  | NonCollapsible : KeyHolder K
deriving DecidableEq, Repr

/-- Whether a key holder carries a real key (`NonEmpty`). -/
def KeyHolder.isKeyed {K : Type} : KeyHolder K → Bool
  | KeyHolder.NonEmpty _ => true
  | _ => false

/-- The `CoalescingRingBuffer` struct: four position counters, the
rejection counter, the key and value slot vectors, and the power-of-two
mask/capacity pair. -/
structure CoalescingRingBuffer (K V : Type) where
  next_write : Nat
  last_cleaned : Nat
  rejection_count : Nat
  keys : List (KeyHolder K)
  values : List (Option V)
  mask : Nat
  capacity : Nat
  first_write : Nat
  last_read : Nat
deriving DecidableEq, Repr

/-- `next_power_of_two` from the source: the bit-smearing trick with
shifts 1,2,4,8,16 (and no 32), applied to `capacity - 1`. -/
def next_power_of_two (capacity : Nat) : Nat :=
  let v := capacity - 1
  let v := v ||| (v >>> 1)
  let v := v ||| (v >>> 2)
  let v := v ||| (v >>> 4)
  let v := v ||| (v >>> 8)
  let v := v ||| (v >>> 16)
  v + 1

namespace CoalescingRingBuffer

variable {K V : Type}

/-- `CoalescingRingBuffer::new`: all slots empty, `next_write = first_write = 1`,
`last_read = last_cleaned = 0`, capacity rounded by `next_power_of_two`. -/
def new (capacity : Nat) : CoalescingRingBuffer K V :=
  let s := next_power_of_two capacity
  { next_write := 1
    last_cleaned := 0
    rejection_count := 0
    keys := List.replicate s KeyHolder.Empty
    values := List.replicate s none
    mask := s - 1
    capacity := s
    first_write := 1
    last_read := 0 }

/-- `size()`: sequentially the consistent-read loop terminates at once and
returns `(next_write - last_read) - 1`. -/
def size (b : CoalescingRingBuffer K V) : Nat :=
  b.next_write - b.last_read - 1

def is_empty (b : CoalescingRingBuffer K V) : Bool :=
  b.first_write == b.next_write

def is_full (b : CoalescingRingBuffer K V) : Bool :=
  b.size == b.capacity

/-- `self.keys[self.mask(p)].get()`: the key holder stored at the slot of
position `p`. -/
def keyAt (b : CoalescingRingBuffer K V) (p : Nat) : KeyHolder K :=
  b.keys.getD (p &&& b.mask) KeyHolder.Empty

/-- The value cell at the slot of position `p`. -/
def valAt (b : CoalescingRingBuffer K V) (p : Nat) : Option V :=
  b.values.getD (p &&& b.mask) none

/-- The body of `clean_up`'s `for x in last_cln..last_read` loop, iterated
structurally on the trip count (a `a..b` loop runs `b - a` times): erase
the key and value at the slot of position `x + 1` and move on. -/
def eraseLoopAux : CoalescingRingBuffer K V → Nat → Nat → CoalescingRingBuffer K V
  | b, _, 0 => b
  | b, x, n + 1 =>
      let i := (x + 1) &&& b.mask
      eraseLoopAux
        { b with keys := b.keys.set i KeyHolder.Empty
                 values := b.values.set i none }
        (x + 1) n

/-- The loop of `clean_up`: for `x` in `last_cln..last_read`, erase the key
and value at the slot of position `x + 1`. -/
def eraseLoop (b : CoalescingRingBuffer K V) (x last_read : Nat) :
    CoalescingRingBuffer K V :=
  eraseLoopAux b x (last_read - x)

/-- `clean_up()`: early return when `last_read == last_cleaned`, otherwise
erase the slots of positions `(last_cleaned, last_read]` and publish
`last_cleaned := last_read`. -/
def clean_up (b : CoalescingRingBuffer K V) : CoalescingRingBuffer K V :=
  let last_read := b.last_read
  let last_cln := b.last_cleaned
  if last_read = last_cln then b
  else { eraseLoop b last_cln last_read with last_cleaned := last_read }

/-- `store`: write the key holder and value into slot `next_write & mask`
and publish `next_write + 1`. -/
def store (b : CoalescingRingBuffer K V) (key : KeyHolder K) (value : V) :
    CoalescingRingBuffer K V :=
  let nw := b.next_write
  let i := nw &&& b.mask
  { b with keys := b.keys.set i key
           values := b.values.set i (some value)
           next_write := nw + 1 }

/-- `add`: reject (and count) when full, otherwise clean up and store. -/
def add (b : CoalescingRingBuffer K V) (key : KeyHolder K) (value : V) :
    Bool × CoalescingRingBuffer K V :=
  if b.is_full then
    (false, { b with rejection_count := b.rejection_count + 1 })
  else
    (true, store b.clean_up key value)

/-- The body of `offer`'s scan loop, iterated structurally on the trip
count: test the slot of the current position against `key_type`. -/
def scanAux [DecidableEq K] (b : CoalescingRingBuffer K V)
    (key_type : KeyHolder K) : Nat → Nat → Option Nat
  | _, 0 => none
  | p, n + 1 =>
      if b.keyAt p = key_type then some p
      else scanAux b key_type (p + 1) n

/-- The scan of `offer`'s `for update_pos in first_write..next_write` loop:
the first position in `[p, hi)` whose slot holds exactly `key_type`. -/
def scan [DecidableEq K] (b : CoalescingRingBuffer K V)
    (key_type : KeyHolder K) (p hi : Nat) : Option Nat :=
  scanAux b key_type p (hi - p)

/-- `offer`: scan the in-flight range for an equal key; on a match swap the
new value in and re-read `first_write` (sequentially unchanged, so the
guard `update_pos >= first_write` holds and the coalesce returns true; the
`else` arm is the race branch, which in this source revision breaks out
without restoring and falls through to `add`).  Without a match, `add`. -/
def offer [DecidableEq K] (b : CoalescingRingBuffer K V) (key : K) (value : V) :
    Bool × CoalescingRingBuffer K V :=
  let nw := b.next_write
  let key_type : KeyHolder K := KeyHolder.NonEmpty key
  match b.scan key_type b.first_write nw with
  | some p =>
      let b' := { b with values := b.values.set (p &&& b.mask) (some value) }
      if b.first_write ≤ p then (true, b')
      else add b' key_type value
  | none => add b key_type value

/-- `offer_value_only`: `add` with the `NonCollapsible` key holder. -/
def offer_value_only (b : CoalescingRingBuffer K V) (value : V) :
    Bool × CoalescingRingBuffer K V :=
  add b KeyHolder.NonCollapsible value

/-- The body of `fill`'s drain loop, iterated structurally on the trip
count: take the value at the current position's slot (a `None` there is
the source's `panic`, modelled as `Option.none` for the whole call) and
push it on the bucket. -/
def fillLoopAux (mask : Nat) :
    List (Option V) → Nat → Nat → Option (List V × List (Option V))
  | vs, _, 0 => some ([], vs)
  | vs, p, n + 1 =>
      match vs.getD (p &&& mask) none with
      | none => none
      | some v =>
          match fillLoopAux mask (vs.set (p &&& mask) none) (p + 1) n with
          | none => none
          | some (l, vs') => some (v :: l, vs')

/-- The loop of `fill`: drain the value at each position of
`[p, claim_up_to)` in ascending order. -/
def fillLoop (vs : List (Option V)) (mask p claim_up_to : Nat) :
    Option (List V × List (Option V)) :=
  fillLoopAux mask vs p (claim_up_to - p)

/-- `fill`: publish `first_write := claim_up_to`, drain positions
`(last_read, claim_up_to)`, publish `last_read := claim_up_to - 1`. -/
def fill (b : CoalescingRingBuffer K V) (claim_up_to : Nat) :
    Option (List V × CoalescingRingBuffer K V) :=
  let b1 := { b with first_write := claim_up_to }
  match fillLoop b1.values b1.mask (b1.last_read + 1) claim_up_to with
  | none => none
  | some (bucket, vals) =>
      some (bucket, { b1 with values := vals, last_read := claim_up_to - 1 })

/-- `poll(max_items)`: claim `min(first_write + max_items, next_write)`. -/
def poll (b : CoalescingRingBuffer K V) (max_items : Nat) :
    Option (List V × CoalescingRingBuffer K V) :=
  fill b (min (b.first_write + max_items) b.next_write)

/-- `poll_all()`: claim everything up to `next_write`. -/
def poll_all (b : CoalescingRingBuffer K V) :
    Option (List V × CoalescingRingBuffer K V) :=
  fill b b.next_write

/-- `offer` with the coalesce-after-claim race made explicit: `fw2` is the
value of `first_write` that the producer's re-read (after its value store)
observes, i.e. the claim the consumer published concurrently.  On the race
branch (`update_pos < fw2`) this source revision has the restoring
`compare_and_swap` commented out: it just breaks and falls through to
`add`, leaving the freshly stored value in the claimed slot and dropping
the prior value. -/
def offer_racy [DecidableEq K] (b : CoalescingRingBuffer K V) (key : K)
    (value : V) (fw2 : Nat) : Bool × CoalescingRingBuffer K V :=
  let key_type : KeyHolder K := KeyHolder.NonEmpty key
  match b.scan key_type b.first_write b.next_write with
  | some p =>
      let b' := { b with values := b.values.set (p &&& b.mask) (some value) }
      if fw2 ≤ p then (true, b')
      else add b' key_type value
  | none => add b key_type value

/-- The same race window in the sibling source
`src/ring_buffer/spsc_coalescing_ring_buffer.rs`, whose `offer` does run
`compare_and_swap(val_ptr, old_ptr)` on the race branch: with no
intervening consumer swap the cell still holds the value just stored, so
the compare succeeds and the prior value is put back before falling
through to `add`. -/
def offer_racy_rb [DecidableEq K] [DecidableEq V]
    (b : CoalescingRingBuffer K V) (key : K) (value : V) (fw2 : Nat) :
    Bool × CoalescingRingBuffer K V :=
  let key_type : KeyHolder K := KeyHolder.NonEmpty key
  match b.scan key_type b.first_write b.next_write with
  | some p =>
      let i := p &&& b.mask
      let old := b.values.getD i none
      let b' := { b with values := b.values.set i (some value) }
      if fw2 ≤ p then (true, b')
      else
        let b'' :=
          if b'.values.getD i none = some value then
            { b' with values := b'.values.set i old }
          else b'
        add b'' key_type value
  | none => add b key_type value

/-- Well-formedness of a buffer state.  Everything here is an invariant of
sequential use (established by `new` and preserved by the four
operations); each conjunct is decidable so that concrete witnesses can be
checked by `decide`. -/
def WF [DecidableEq K] (b : CoalescingRingBuffer K V) : Prop :=
  (b.capacity &&& (b.capacity - 1) = 0 ∧ 0 < b.capacity) ∧
  b.mask + 1 = b.capacity ∧
  b.keys.length = b.capacity ∧
  b.values.length = b.capacity ∧
  b.last_cleaned ≤ b.last_read ∧
  b.last_read + 1 = b.first_write ∧
  b.first_write ≤ b.next_write ∧
  b.next_write ≤ b.last_cleaned + b.capacity + 1 ∧
  (∀ p, p < b.next_write → b.last_read < p → (b.valAt p).isSome) ∧
  (∀ p, p < b.next_write → ∀ q, q < b.next_write →
    (b.first_write ≤ p ∧ b.first_write ≤ q ∧ p ≠ q ∧ (b.keyAt p).isKeyed) →
    b.keyAt p ≠ b.keyAt q)

instance [DecidableEq K] (b : CoalescingRingBuffer K V) : Decidable b.WF := by
  unfold WF
  infer_instance

/-- States reachable from a freshly constructed buffer by the sequential
API: `offer`, `offer_value_only`, `poll`, `poll_all`. -/
inductive Reachable [DecidableEq K] : CoalescingRingBuffer K V → Prop where
  | base : ∀ c : Nat, 1 ≤ c → Reachable (new c)
  | offer_step : ∀ b (k : K) (v : V), Reachable b → Reachable (offer b k v).2
  | offer_value_only_step : ∀ b (v : V), Reachable b →
      Reachable (offer_value_only b v).2
  | poll_step : ∀ b (m : Nat) l b', Reachable b → poll b m = some (l, b') →
      Reachable b'
  | poll_all_step : ∀ b l b', Reachable b → poll_all b = some (l, b') →
      Reachable b'

end CoalescingRingBuffer

namespace CoalescingRingBuffer

variable {K V : Type}

theorem getD_set_self {α : Type _} (l : List α) (i : Nat) (a d : α)
    (h : i < l.length) : (l.set i a).getD i d = a := by
  simp [List.getD_eq_getElem?_getD, List.getElem?_set_self h]

theorem getD_set_ne {α : Type _} (l : List α) {i j : Nat} (a d : α)
    (h : i ≠ j) : (l.set i a).getD j d = l.getD j d := by
  simp [List.getD_eq_getElem?_getD, List.getElem?_set_ne h]

theorem lt_length_of_getD_isSome {α : Type _} {l : List (Option α)} {i : Nat}
    (h : (l.getD i none).isSome) : i < l.length := by
  by_contra hc
  rw [List.getD_eq_getElem?_getD, List.getElem?_eq_none (by omega)] at h
  simp at h

/-- With a power-of-two capacity, masking is reduction mod the capacity. -/
theorem mask_eq_mod {cap mask : Nat} (p : Nat) (hcap : cap = 2 ^ Nat.log2 cap)
    (hm : mask + 1 = cap) : p &&& mask = p % cap := by
  have hmask : mask = 2 ^ Nat.log2 cap - 1 := by omega
  rw [hmask, Nat.and_pow_two_sub_one_eq_mod, ← hcap]

theorem mod_ne_of_window {cap p q : Nat} (hne : p ≠ q)
    (hpq : p < q + cap) (hqp : q < p + cap) : p % cap ≠ q % cap := by
  intro h
  rcases Nat.lt_or_ge p q with hlt | hge
  · have hdvd : cap ∣ q - p := (Nat.modEq_iff_dvd' (Nat.le_of_lt hlt)).1 h
    have := Nat.le_of_dvd (by omega) hdvd
    omega
  · have hlt : q < p := by omega
    have hdvd : cap ∣ p - q := (Nat.modEq_iff_dvd' (Nat.le_of_lt hlt)).1 h.symm
    have := Nat.le_of_dvd (by omega) hdvd
    omega

/-- A positive number whose `and` with its predecessor vanishes is the
power of two selected by its `log2`. -/
theorem pow2_of_and_sub_one {n : Nat} (h0 : 0 < n) (h : n &&& (n - 1) = 0) :
    n = 2 ^ Nat.log2 n := by
  set L := Nat.log2 n with hL
  have hlow : 2 ^ L ≤ n := Nat.log2_self_le (by omega)
  have hhigh : n < 2 ^ (L + 1) := Nat.lt_log2_self
  by_contra hne
  have hr : 2 ^ L < n := by omega
  have hpow : (1 + 1) * 2 ^ L = 2 ^ (L + 1) := by ring
  have ht1 : n.testBit L = true := by
    rw [Nat.testBit_to_div_mod]
    have hd : n / 2 ^ L = 1 :=
      Nat.div_eq_of_lt_le (by simpa using hlow) (by rw [hpow]; exact hhigh)
    rw [hd]
    rfl
  have ht2 : (n - 1).testBit L = true := by
    rw [Nat.testBit_to_div_mod]
    have hd : (n - 1) / 2 ^ L = 1 :=
      Nat.div_eq_of_lt_le (by simp; omega) (by rw [hpow]; omega)
    rw [hd]
    rfl
  have hcontra := congrArg (fun m => m.testBit L) h
  simp only [Nat.testBit_and, ht1, ht2, Nat.zero_testBit] at hcontra
  cases hcontra

/-- Any two distinct positions in the live window `(last_cleaned, next_write)`
of a well-formed buffer occupy distinct physical slots. -/
theorem slot_ne [DecidableEq K] {b : CoalescingRingBuffer K V} (hWF : b.WF)
    {p q : Nat} (hp1 : b.last_cleaned < p) (hp2 : p < b.next_write)
    (hq1 : b.last_cleaned < q) (hq2 : q < b.next_write) (hne : p ≠ q) :
    p &&& b.mask ≠ q &&& b.mask := by
  obtain ⟨h1, h2, _, _, h5, h6, h7, h8, _, _⟩ := hWF
  have h1' : b.capacity = 2 ^ Nat.log2 b.capacity :=
    pow2_of_and_sub_one h1.2 h1.1
  rw [mask_eq_mod p h1' h2, mask_eq_mod q h1' h2]
  exact mod_ne_of_window hne (by omega) (by omega)

theorem and_mask_lt_keys [DecidableEq K] {b : CoalescingRingBuffer K V}
    (hWF : b.WF) (p : Nat) : p &&& b.mask < b.keys.length := by
  obtain ⟨h1, h2, h3, _, _, _, _, _, _, _⟩ := hWF
  have := Nat.and_le_right (n := p) (m := b.mask)
  omega

theorem and_mask_lt_values [DecidableEq K] {b : CoalescingRingBuffer K V}
    (hWF : b.WF) (p : Nat) : p &&& b.mask < b.values.length := by
  obtain ⟨h1, h2, _, h4, _, _, _, _, _, _⟩ := hWF
  have := Nat.and_le_right (n := p) (m := b.mask)
  omega

end CoalescingRingBuffer

namespace CoalescingRingBuffer

variable {K V : Type}

/-- `scan` is `find?` of the key predicate over the positions of the scanned
range, in ascending order. -/
theorem find_congr {α : Type _} (l : List α) (f g : α → Bool)
    (h : ∀ a, a ∈ l → f a = g a) : l.find? f = l.find? g := by
  induction l with
  | nil => rfl
  | cons a l ih =>
      by_cases hfa : f a
      · rw [List.find?_cons_of_pos _ hfa,
          List.find?_cons_of_pos _ (by rw [← h a (List.mem_cons_self a l)]; exact hfa)]
      · rw [List.find?_cons_of_neg _ hfa,
          List.find?_cons_of_neg _ (by rw [← h a (List.mem_cons_self a l)]; exact hfa)]
        exact ih fun a ha => h a (List.mem_cons_of_mem _ ha)

theorem scanAux_eq_find [DecidableEq K] (b : CoalescingRingBuffer K V)
    (kh : KeyHolder K) (n : Nat) : ∀ p,
    scanAux b kh p n = (List.range' p n).find? (fun q => b.keyAt q == kh) := by
  induction n with
  | zero => intro p; rfl
  | succ n ih =>
      intro p
      rw [List.range'_succ]
      by_cases h : b.keyAt p = kh
      · rw [scanAux, if_pos h, List.find?_cons_of_pos _ (by simpa using h)]
      · rw [scanAux, if_neg h, List.find?_cons_of_neg _ (by simpa using h),
          ih (p + 1)]

theorem scan_eq_find [DecidableEq K] (b : CoalescingRingBuffer K V)
    (kh : KeyHolder K) (p hi : Nat) :
    b.scan kh p hi =
      (List.range' p (hi - p)).find? (fun q => b.keyAt q == kh) :=
  scanAux_eq_find b kh (hi - p) p

theorem scan_eq_none_iff [DecidableEq K] (b : CoalescingRingBuffer K V)
    (kh : KeyHolder K) (p hi : Nat) :
    b.scan kh p hi = none ↔ ∀ q, p ≤ q → q < hi → b.keyAt q ≠ kh := by
  rw [scan_eq_find, List.find?_eq_none]
  constructor
  · intro h q hq1 hq2
    have hmem : q ∈ List.range' p (hi - p) := by
      rw [List.mem_range']
      exact ⟨q - p, by omega, by omega⟩
    simpa using h q hmem
  · intro h q hmem
    rw [List.mem_range'] at hmem
    obtain ⟨i, hi1, hi2⟩ := hmem
    simpa using h q (by omega) (by omega)

theorem scan_eq_some_bound [DecidableEq K] {b : CoalescingRingBuffer K V}
    {kh : KeyHolder K} {p hi r : Nat} (h : b.scan kh p hi = some r) :
    p ≤ r ∧ r < hi ∧ b.keyAt r = kh := by
  rw [scan_eq_find] at h
  have hmem := List.mem_of_find?_eq_some h
  have hkey := List.find?_some h
  rw [List.mem_range'] at hmem
  obtain ⟨i, hi1, hi2⟩ := hmem
  exact ⟨by omega, by omega, by simpa using hkey⟩

/-- Two buffers agreeing on the key holders of the scanned range scan
identically. -/
theorem scan_congr [DecidableEq K] (b b' : CoalescingRingBuffer K V)
    (kh : KeyHolder K) (p hi : Nat)
    (h : ∀ q, p ≤ q → q < hi → b.keyAt q = b'.keyAt q) :
    b.scan kh p hi = b'.scan kh p hi := by
  rw [scan_eq_find, scan_eq_find]
  apply find_congr
  intro q hmem
  rw [List.mem_range'] at hmem
  obtain ⟨i, hi1, hi2⟩ := hmem
  rw [h q (by omega) (by omega)]

end CoalescingRingBuffer

namespace CoalescingRingBuffer

variable {K V : Type}

theorem eraseLoopAux_counters (n : Nat) :
    ∀ (b : CoalescingRingBuffer K V) (x : Nat),
    (eraseLoopAux b x n).next_write = b.next_write ∧
    (eraseLoopAux b x n).last_cleaned = b.last_cleaned ∧
    (eraseLoopAux b x n).rejection_count = b.rejection_count ∧
    (eraseLoopAux b x n).mask = b.mask ∧
    (eraseLoopAux b x n).capacity = b.capacity ∧
    (eraseLoopAux b x n).first_write = b.first_write ∧
    (eraseLoopAux b x n).last_read = b.last_read ∧
    (eraseLoopAux b x n).keys.length = b.keys.length ∧
    (eraseLoopAux b x n).values.length = b.values.length := by
  induction n with
  | zero => intro b x; exact ⟨rfl, rfl, rfl, rfl, rfl, rfl, rfl, rfl, rfl⟩
  | succ n ih =>
      intro b x
      rw [eraseLoopAux]
      have := ih
        { b with keys := b.keys.set ((x + 1) &&& b.mask) KeyHolder.Empty
                 values := b.values.set ((x + 1) &&& b.mask) none } (x + 1)
      simpa using this

theorem eraseLoop_counters (b : CoalescingRingBuffer K V) (x lr : Nat) :
    (eraseLoop b x lr).next_write = b.next_write ∧
    (eraseLoop b x lr).last_cleaned = b.last_cleaned ∧
    (eraseLoop b x lr).rejection_count = b.rejection_count ∧
    (eraseLoop b x lr).mask = b.mask ∧
    (eraseLoop b x lr).capacity = b.capacity ∧
    (eraseLoop b x lr).first_write = b.first_write ∧
    (eraseLoop b x lr).last_read = b.last_read ∧
    (eraseLoop b x lr).keys.length = b.keys.length ∧
    (eraseLoop b x lr).values.length = b.values.length :=
  eraseLoopAux_counters (lr - x) b x

theorem eraseLoopAux_getD_frame (n : Nat) :
    ∀ (b : CoalescingRingBuffer K V) (x i : Nat),
    (∀ y, x < y → y ≤ x + n → y &&& b.mask ≠ i) →
    ∀ (dk : KeyHolder K) (dv : Option V),
    (eraseLoopAux b x n).keys.getD i dk = b.keys.getD i dk ∧
    (eraseLoopAux b x n).values.getD i dv = b.values.getD i dv := by
  induction n with
  | zero => intro b x i h dk dv; exact ⟨rfl, rfl⟩
  | succ n ih =>
      intro b x i h dk dv
      rw [eraseLoopAux]
      have hne : (x + 1) &&& b.mask ≠ i := h (x + 1) (by omega) (by omega)
      have hrec := ih
        { b with keys := b.keys.set ((x + 1) &&& b.mask) KeyHolder.Empty
                 values := b.values.set ((x + 1) &&& b.mask) none }
        (x + 1) i (by intro y hy1 hy2; simpa using h y (by omega) (by omega))
        dk dv
      simp only at hrec
      rw [hrec.1, hrec.2, getD_set_ne _ _ _ hne, getD_set_ne _ _ _ hne]
      exact ⟨rfl, rfl⟩

theorem eraseLoop_getD_frame (b : CoalescingRingBuffer K V) (x lr i : Nat)
    (h : ∀ y, x < y → y ≤ lr → y &&& b.mask ≠ i) (dk : KeyHolder K)
    (dv : Option V) :
    (eraseLoop b x lr).keys.getD i dk = b.keys.getD i dk ∧
    (eraseLoop b x lr).values.getD i dv = b.values.getD i dv :=
  eraseLoopAux_getD_frame (lr - x) b x i
    (fun y hy1 hy2 => h y hy1 (by omega)) dk dv

theorem eraseLoopAux_getD_erased (n : Nat) :
    ∀ (b : CoalescingRingBuffer K V) (x y : Nat), x < y → y ≤ x + n →
    (eraseLoopAux b x n).keys.getD (y &&& b.mask) KeyHolder.Empty
      = KeyHolder.Empty ∧
    (eraseLoopAux b x n).values.getD (y &&& b.mask) none = none := by
  induction n with
  | zero => intro b x y hy1 hy2; omega
  | succ n ih =>
      intro b x y hy1 hy2
      rw [eraseLoopAux]
      by_cases hcase : ∃ z, x + 1 < z ∧ z ≤ x + 1 + n ∧
          z &&& b.mask = y &&& b.mask
      · obtain ⟨z, hz1, hz2, hz3⟩ := hcase
        have := ih
          { b with keys := b.keys.set ((x + 1) &&& b.mask) KeyHolder.Empty
                   values := b.values.set ((x + 1) &&& b.mask) none }
          (x + 1) z hz1 (by simpa using hz2)
        simpa [hz3] using this
      · push_neg at hcase
        have hy : y = x + 1 ∨ (x + 1 < y ∧ y ≤ x + 1 + n) := by omega
        rcases hy with hy | hy
        · subst hy
          have hfr := eraseLoopAux_getD_frame n
            { b with keys := b.keys.set ((x + 1) &&& b.mask) KeyHolder.Empty
                     values := b.values.set ((x + 1) &&& b.mask) none }
            (x + 1) ((x + 1) &&& b.mask)
            (by intro z hz1 hz2; simpa using hcase z hz1 (by simpa using hz2))
            KeyHolder.Empty none
          simp only at hfr
          rw [hfr.1, hfr.2]
          constructor
          · by_cases hlen : (x + 1) &&& b.mask < b.keys.length
            · rw [getD_set_self _ _ _ _ hlen]
            · rw [List.getD_eq_getElem?_getD, List.getElem?_eq_none (by simp; omega)]
              rfl
          · by_cases hlen : (x + 1) &&& b.mask < b.values.length
            · rw [getD_set_self _ _ _ _ hlen]
            · rw [List.getD_eq_getElem?_getD, List.getElem?_eq_none (by simp; omega)]
              rfl
        · exact absurd rfl (hcase y hy.1 hy.2)

theorem eraseLoop_getD_erased (b : CoalescingRingBuffer K V) (x lr : Nat) :
    ∀ y, x < y → y ≤ lr →
    (eraseLoop b x lr).keys.getD (y &&& b.mask) KeyHolder.Empty
      = KeyHolder.Empty ∧
    (eraseLoop b x lr).values.getD (y &&& b.mask) none = none :=
  fun y hy1 hy2 => eraseLoopAux_getD_erased (lr - x) b x y hy1 (by omega)

end CoalescingRingBuffer

namespace CoalescingRingBuffer

variable {K V : Type}

theorem clean_up_counters (b : CoalescingRingBuffer K V) :
    (clean_up b).next_write = b.next_write ∧
    (clean_up b).rejection_count = b.rejection_count ∧
    (clean_up b).mask = b.mask ∧
    (clean_up b).capacity = b.capacity ∧
    (clean_up b).first_write = b.first_write ∧
    (clean_up b).last_read = b.last_read ∧
    (clean_up b).last_cleaned = b.last_read ∧
    (clean_up b).keys.length = b.keys.length ∧
    (clean_up b).values.length = b.values.length := by
  unfold clean_up
  by_cases h : b.last_read = b.last_cleaned
  · rw [if_pos h]
    exact ⟨rfl, rfl, rfl, rfl, rfl, rfl, h.symm, rfl, rfl⟩
  · rw [if_neg h]
    have hc := eraseLoop_counters b b.last_cleaned b.last_read
    exact ⟨hc.1, hc.2.2.1, hc.2.2.2.1, hc.2.2.2.2.1, hc.2.2.2.2.2.1,
      hc.2.2.2.2.2.2.1, rfl, hc.2.2.2.2.2.2.2.1, hc.2.2.2.2.2.2.2.2⟩

theorem clean_up_eq_self (b : CoalescingRingBuffer K V)
    (h : b.last_cleaned = b.last_read) : clean_up b = b := by
  unfold clean_up
  rw [if_pos h.symm]

theorem clean_up_erased (b : CoalescingRingBuffer K V) {y : Nat}
    (hy1 : b.last_cleaned < y) (hy2 : y ≤ b.last_read) :
    (clean_up b).keys.getD (y &&& b.mask) KeyHolder.Empty = KeyHolder.Empty ∧
    (clean_up b).values.getD (y &&& b.mask) none = none := by
  unfold clean_up
  rw [if_neg (by omega)]
  exact eraseLoop_getD_erased b b.last_cleaned b.last_read y hy1 hy2

theorem clean_up_getD_frame (b : CoalescingRingBuffer K V) (i : Nat)
    (h : ∀ y, b.last_cleaned < y → y ≤ b.last_read → y &&& b.mask ≠ i)
    (dk : KeyHolder K) (dv : Option V) :
    (clean_up b).keys.getD i dk = b.keys.getD i dk ∧
    (clean_up b).values.getD i dv = b.values.getD i dv := by
  unfold clean_up
  by_cases hcl : b.last_read = b.last_cleaned
  · rw [if_pos hcl]
    exact ⟨rfl, rfl⟩
  · rw [if_neg hcl]
    exact eraseLoop_getD_frame b b.last_cleaned b.last_read i h dk dv

/-- Cleanup does not disturb the slot of any live (undrained) position. -/
theorem clean_up_live [DecidableEq K] {b : CoalescingRingBuffer K V}
    (hWF : b.WF) {p : Nat} (hp1 : b.last_read < p) (hp2 : p < b.next_write) :
    (clean_up b).keyAt p = b.keyAt p ∧ (clean_up b).valAt p = b.valAt p := by
  have hc := clean_up_counters b
  have h5 : b.last_cleaned ≤ b.last_read := hWF.2.2.2.2.1
  unfold keyAt valAt
  rw [hc.2.2.1]
  exact clean_up_getD_frame b (p &&& b.mask)
    (fun y hy1 hy2 => slot_ne hWF (by omega) (by omega) (by omega) hp2 (by omega))
    KeyHolder.Empty none

theorem clean_up_WF [DecidableEq K] {b : CoalescingRingBuffer K V}
    (hWF : b.WF) : (clean_up b).WF := by
  have hc := clean_up_counters b
  obtain ⟨h1, h2, h3, h4, h5, h6, h7, h8, h9, h10⟩ := hWF
  refine ⟨?_, ?_, ?_, ?_, ?_, ?_, ?_, ?_, ?_, ?_⟩
  · rw [hc.2.2.2.1]
    exact h1
  · rw [hc.2.2.1, hc.2.2.2.1]
    exact h2
  · rw [hc.2.2.2.2.2.2.2.1, hc.2.2.2.1]
    exact h3
  · rw [hc.2.2.2.2.2.2.2.2, hc.2.2.2.1]
    exact h4
  · rw [hc.2.2.2.2.2.2.1, hc.2.2.2.2.2.1]
  · rw [hc.2.2.2.2.2.1, hc.2.2.2.2.1]
    exact h6
  · rw [hc.2.2.2.2.1, hc.1]
    exact h7
  · rw [hc.1, hc.2.2.2.2.2.2.1, hc.2.2.2.1]
    omega
  · intro p hp1 hp2
    rw [hc.1] at hp1
    rw [hc.2.2.2.2.2.1] at hp2
    rw [(clean_up_live ⟨h1, h2, h3, h4, h5, h6, h7, h8, h9, h10⟩ hp2 hp1).2]
    exact h9 p hp1 hp2
  · intro p hp q hq hcond
    rw [hc.1] at hp hq
    rw [hc.2.2.2.2.1] at hcond
    have hWF' : b.WF := ⟨h1, h2, h3, h4, h5, h6, h7, h8, h9, h10⟩
    have hkp := (clean_up_live hWF' (by omega) hp).1
    have hkq := (clean_up_live hWF' (by omega) hq).1
    rw [hkp, hkq]
    rw [hkp] at hcond
    exact h10 p hp q hq hcond

end CoalescingRingBuffer

namespace CoalescingRingBuffer

variable {K V : Type}

theorem store_counters (b : CoalescingRingBuffer K V) (kh : KeyHolder K) (v : V) :
    (store b kh v).next_write = b.next_write + 1 ∧
    (store b kh v).last_cleaned = b.last_cleaned ∧
    (store b kh v).rejection_count = b.rejection_count ∧
    (store b kh v).mask = b.mask ∧
    (store b kh v).capacity = b.capacity ∧
    (store b kh v).first_write = b.first_write ∧
    (store b kh v).last_read = b.last_read ∧
    (store b kh v).keys.length = b.keys.length ∧
    (store b kh v).values.length = b.values.length := by
  unfold store
  exact ⟨rfl, rfl, rfl, rfl, rfl, rfl, rfl, by simp, by simp⟩

theorem store_new_slot [DecidableEq K] {b : CoalescingRingBuffer K V}
    (hWF : b.WF) (kh : KeyHolder K) (v : V) :
    (store b kh v).keyAt b.next_write = kh ∧
    (store b kh v).valAt b.next_write = some v := by
  unfold store keyAt valAt
  simp only
  exact ⟨getD_set_self _ _ _ _ (and_mask_lt_keys hWF _),
    getD_set_self _ _ _ _ (and_mask_lt_values hWF _)⟩

/-- `store` does not disturb the slot of any live position when the buffer
is not full. -/
theorem store_frame [DecidableEq K] {b : CoalescingRingBuffer K V}
    (hWF : b.WF) (kh : KeyHolder K) (v : V) (hsize : b.size < b.capacity)
    {p : Nat} (hp1 : b.last_read < p) (hp2 : p < b.next_write) :
    (store b kh v).keyAt p = b.keyAt p ∧ (store b kh v).valAt p = b.valAt p := by
  have h1 : b.capacity = 2 ^ Nat.log2 b.capacity :=
    pow2_of_and_sub_one hWF.1.2 hWF.1.1
  have h2 := hWF.2.1
  have h5 := hWF.2.2.2.2.1
  have h6 := hWF.2.2.2.2.2.1
  have hne : p &&& b.mask ≠ b.next_write &&& b.mask := by
    rw [mask_eq_mod p h1 h2, mask_eq_mod b.next_write h1 h2]
    refine mod_ne_of_window (by omega) (by omega) ?_
    have : b.size = b.next_write - b.last_read - 1 := rfl
    omega
  unfold store keyAt valAt
  simp only
  exact ⟨getD_set_ne _ _ _ (Ne.symm hne), getD_set_ne _ _ _ (Ne.symm hne)⟩

theorem isKeyed_ne {a c : KeyHolder K} (ha : a.isKeyed) (hc : ¬c.isKeyed) :
    a ≠ c := by
  intro h
  rw [h] at ha
  exact hc ha

theorem store_WF [DecidableEq K] {b : CoalescingRingBuffer K V}
    {kh : KeyHolder K} {v : V} (hWF : b.WF)
    (hclean : b.last_cleaned = b.last_read) (hsize : b.size < b.capacity)
    (hnew : ∀ p, b.first_write ≤ p → p < b.next_write →
      kh.isKeyed → b.keyAt p ≠ kh) :
    (store b kh v).WF := by
  have hc := store_counters b kh v
  have hnewslot := store_new_slot hWF kh v
  obtain ⟨h1, h2, h3, h4, h5, h6, h7, h8, h9, h10⟩ := hWF
  have hWF' : b.WF := ⟨h1, h2, h3, h4, h5, h6, h7, h8, h9, h10⟩
  have hsz : b.size = b.next_write - b.last_read - 1 := rfl
  refine ⟨?_, ?_, ?_, ?_, ?_, ?_, ?_, ?_, ?_, ?_⟩
  · rw [hc.2.2.2.2.1]
    exact h1
  · rw [hc.2.2.2.1, hc.2.2.2.2.1]
    exact h2
  · rw [hc.2.2.2.2.2.2.2.1, hc.2.2.2.2.1]
    exact h3
  · rw [hc.2.2.2.2.2.2.2.2, hc.2.2.2.2.1]
    exact h4
  · rw [hc.2.1, hc.2.2.2.2.2.2.1]
    exact h5
  · rw [hc.2.2.2.2.2.2.1, hc.2.2.2.2.2.1]
    exact h6
  · rw [hc.2.2.2.2.2.1, hc.1]
    omega
  · rw [hc.1, hc.2.1, hc.2.2.2.2.1]
    omega
  · intro p hp1 hp2
    rw [hc.1] at hp1
    rw [hc.2.2.2.2.2.2.1] at hp2
    rcases Nat.lt_or_ge p b.next_write with hlt | hge
    · rw [(store_frame hWF' kh v hsize hp2 hlt).2]
      exact h9 p hlt hp2
    · have hp : p = b.next_write := by omega
      rw [hp, hnewslot.2]
      rfl
  · intro p hp q hq hcond
    rw [hc.1] at hp hq
    rw [hc.2.2.2.2.2.1] at hcond
    obtain ⟨hfp, hfq, hpq, hkeyed⟩ := hcond
    rcases Nat.lt_or_ge p b.next_write with hpl | hpg
    · rcases Nat.lt_or_ge q b.next_write with hql | hqg
      · rw [(store_frame hWF' kh v hsize (by omega) hpl).1] at hkeyed ⊢
        rw [(store_frame hWF' kh v hsize (by omega) hql).1]
        exact h10 p hpl q hql ⟨hfp, hfq, hpq, hkeyed⟩
      · have hq' : q = b.next_write := by omega
        rw [(store_frame hWF' kh v hsize (by omega) hpl).1] at hkeyed ⊢
        rw [hq', hnewslot.1]
        by_cases hkh : kh.isKeyed
        · exact hnew p hfp hpl hkh
        · exact isKeyed_ne hkeyed hkh
    · have hp' : p = b.next_write := by omega
      have hql : q < b.next_write := by omega
      rw [hp', hnewslot.1] at hkeyed ⊢
      rw [(store_frame hWF' kh v hsize (by omega) hql).1]
      exact fun heq => hnew q hfq hql hkeyed heq.symm

end CoalescingRingBuffer

namespace CoalescingRingBuffer

variable {K V : Type}

theorem size_le_capacity [DecidableEq K] {b : CoalescingRingBuffer K V}
    (hWF : b.WF) : b.size ≤ b.capacity := by
  have h5 := hWF.2.2.2.2.1
  have h8 := hWF.2.2.2.2.2.2.2.1
  have : b.size = b.next_write - b.last_read - 1 := rfl
  omega

theorem add_of_not_full {b : CoalescingRingBuffer K V} (kh : KeyHolder K)
    (v : V) (h : b.size ≠ b.capacity) :
    add b kh v = (true, store b.clean_up kh v) := by
  unfold add is_full
  rw [if_neg (by simpa using h)]

theorem add_of_full {b : CoalescingRingBuffer K V} (kh : KeyHolder K)
    (v : V) (h : b.size = b.capacity) :
    add b kh v = (false, { b with rejection_count := b.rejection_count + 1 }) := by
  unfold add is_full
  rw [if_pos (by simpa using h)]

/-- The producer's coalescing scan finds position `p` for key `k`. -/
def FirstMatch [DecidableEq K] (b : CoalescingRingBuffer K V) (k : K)
    (p : Nat) : Prop :=
  b.scan (KeyHolder.NonEmpty k) b.first_write b.next_write = some p

/-- When the scan matches, `offer` coalesces: it returns `true` and only
rewrites the matched slot's value cell. -/
theorem offer_of_firstMatch [DecidableEq K] {b : CoalescingRingBuffer K V}
    {k : K} {p : Nat} (hFM : b.FirstMatch k p) (v : V) :
    offer b k v =
      (true, { b with values := b.values.set (p &&& b.mask) (some v) }) := by
  have hb := scan_eq_some_bound hFM
  simp only [offer]
  rw [hFM]
  simp only
  rw [if_pos hb.1]

theorem set_value_keyAt (b : CoalescingRingBuffer K V) (i : Nat)
    (w : Option V) (q : Nat) :
    ({ b with values := b.values.set i w } : CoalescingRingBuffer K V).keyAt q
      = b.keyAt q := rfl

theorem set_value_WF [DecidableEq K] {b : CoalescingRingBuffer K V}
    (hWF : b.WF) {p : Nat} (hp1 : b.last_read < p) (hp2 : p < b.next_write)
    (v : V) :
    ({ b with values := b.values.set (p &&& b.mask) (some v) } :
      CoalescingRingBuffer K V).WF := by
  obtain ⟨h1, h2, h3, h4, h5, h6, h7, h8, h9, h10⟩ := hWF
  have hWF' : b.WF := ⟨h1, h2, h3, h4, h5, h6, h7, h8, h9, h10⟩
  refine ⟨h1, h2, h3, by simpa using h4, h5, h6, h7, h8, ?_, h10⟩
  intro q hq1 hq2
  replace hq1 : q < b.next_write := hq1
  replace hq2 : b.last_read < q := hq2
  by_cases hqp : q = p
  · subst hqp
    unfold valAt
    simp only
    rw [getD_set_self _ _ _ _ (and_mask_lt_values hWF' _)]
    rfl
  · unfold valAt
    simp only
    rw [getD_set_ne _ _ _ (Ne.symm (slot_ne hWF' (by omega) hq1 (by omega) hp2 hqp))]
    exact h9 q hq1 hq2

theorem set_value_valAt_self [DecidableEq K] {b : CoalescingRingBuffer K V}
    (hWF : b.WF) (p : Nat) (v : V) :
    ({ b with values := b.values.set (p &&& b.mask) (some v) } :
      CoalescingRingBuffer K V).valAt p = some v := by
  unfold valAt
  simp only
  exact getD_set_self _ _ _ _ (and_mask_lt_values hWF _)

theorem set_value_valAt_ne [DecidableEq K] {b : CoalescingRingBuffer K V}
    (hWF : b.WF) {p q : Nat} (hp1 : b.last_cleaned < p) (hp2 : p < b.next_write)
    (hq1 : b.last_cleaned < q) (hq2 : q < b.next_write) (hne : q ≠ p) (v : V) :
    ({ b with values := b.values.set (p &&& b.mask) (some v) } :
      CoalescingRingBuffer K V).valAt q = b.valAt q := by
  unfold valAt
  simp only
  exact getD_set_ne _ _ _ (slot_ne hWF hp1 hp2 hq1 hq2 (Ne.symm hne))

/-- Extending a failed scan by one position that does match yields that
position. -/
theorem scan_append_last [DecidableEq K] {b : CoalescingRingBuffer K V}
    {kh : KeyHolder K} {fw nw : Nat} (hfw : fw ≤ nw)
    (hnone : ∀ q, fw ≤ q → q < nw → b.keyAt q ≠ kh) (hlast : b.keyAt nw = kh) :
    b.scan kh fw (nw + 1) = some nw := by
  rw [scan_eq_find]
  have hsplit : List.range' fw (nw + 1 - fw) =
      List.range' fw (nw - fw) ++ List.range' (fw + (nw - fw)) 1 := by
    rw [List.range'_append_1]
    congr 1
    omega
  rw [hsplit, List.find?_append]
  have hn : (List.range' fw (nw - fw)).find? (fun q => b.keyAt q == kh) = none := by
    rw [List.find?_eq_none]
    intro x hmem
    rw [List.mem_range'] at hmem
    obtain ⟨i, hi1, hi2⟩ := hmem
    simpa using hnone x (by omega) (by omega)
  rw [hn]
  have : fw + (nw - fw) = nw := by omega
  rw [this]
  simp [hlast]

end CoalescingRingBuffer

namespace CoalescingRingBuffer

variable {K V : Type}

/-- A successful `offer` leaves the buffer well-formed with the offered
value installed at an in-flight position that the next scan for the same
key will find. -/
theorem offer_true_struct [DecidableEq K] {b : CoalescingRingBuffer K V}
    {k : K} {v : V} (hWF : b.WF) (htrue : (offer b k v).1 = true) :
    ∃ p, (offer b k v).2.first_write ≤ p ∧ p < (offer b k v).2.next_write ∧
      (offer b k v).2.WF ∧ (offer b k v).2.FirstMatch k p ∧
      (offer b k v).2.valAt p = some v := by
  cases hscan : b.scan (KeyHolder.NonEmpty k) b.first_write b.next_write with
  | some p =>
      have hb := scan_eq_some_bound hscan
      have heq := offer_of_firstMatch hscan v
      rw [heq]
      have h6 := hWF.2.2.2.2.2.1
      refine ⟨p, hb.1, hb.2.1, set_value_WF hWF (by omega) hb.2.1 v, ?_,
        set_value_valAt_self hWF p v⟩
      unfold FirstMatch
      rw [scan_congr _ b _ _ _ (fun q hq1 hq2 => set_value_keyAt b _ _ q)]
      exact hscan
  | none =>
      have heq : offer b k v = add b (KeyHolder.NonEmpty k) v := by
        simp only [offer, hscan]
      rw [heq] at htrue ⊢
      by_cases hfull : b.size = b.capacity
      · rw [add_of_full _ _ hfull] at htrue
        simp at htrue
      · rw [add_of_not_full _ _ hfull] at htrue ⊢
        have hWFc := clean_up_WF hWF
        have hcc := clean_up_counters b
        have h6 := hWF.2.2.2.2.2.1
        have h7 := hWF.2.2.2.2.2.2.1
        have hclean_c : b.clean_up.last_cleaned = b.clean_up.last_read := by
          rw [hcc.2.2.2.2.2.2.1, hcc.2.2.2.2.2.1]
        have hsize_eq : b.clean_up.size = b.size := by
          unfold size
          rw [hcc.1, hcc.2.2.2.2.2.1]
        have hsize_c : b.clean_up.size < b.clean_up.capacity := by
          rw [hsize_eq, hcc.2.2.2.1]
          have := size_le_capacity hWF
          omega
        have hnone := (scan_eq_none_iff b _ _ _).1 hscan
        have hnew_c : ∀ q, b.clean_up.first_write ≤ q → q < b.clean_up.next_write →
            (KeyHolder.NonEmpty k : KeyHolder K).isKeyed →
            b.clean_up.keyAt q ≠ KeyHolder.NonEmpty k := by
          intro q hq1 hq2 _
          rw [hcc.2.2.2.2.1] at hq1
          rw [hcc.1] at hq2
          rw [(clean_up_live hWF (by omega) hq2).1]
          exact hnone q hq1 hq2
        have hWFs := store_WF hWFc hclean_c hsize_c hnew_c (v := v)
        have hsc := store_counters b.clean_up (KeyHolder.NonEmpty k) v
        have hnewslot := store_new_slot hWFc (KeyHolder.NonEmpty k) v
        refine ⟨b.next_write, ?_, ?_, hWFs, ?_, ?_⟩
        · rw [hsc.2.2.2.2.2.1, hcc.2.2.2.2.1]
          omega
        · rw [hsc.1, hcc.1]
          omega
        · unfold FirstMatch
          have hfw : (store b.clean_up (KeyHolder.NonEmpty k) v).first_write
              = b.first_write := by
            rw [hsc.2.2.2.2.2.1, hcc.2.2.2.2.1]
          have hnw : (store b.clean_up (KeyHolder.NonEmpty k) v).next_write
              = b.next_write + 1 := by
            rw [hsc.1, hcc.1]
          rw [hfw, hnw]
          apply scan_append_last h7
          · intro q hq1 hq2
            have hlive1 : b.clean_up.last_read < q := by
              rw [hcc.2.2.2.2.2.1]
              omega
            have hlive2 : q < b.clean_up.next_write := by
              rw [hcc.1]
              omega
            rw [(store_frame hWFc _ v hsize_c hlive1 hlive2).1]
            rw [(clean_up_live hWF (by rw [hcc.2.2.2.2.2.1] at hlive1; exact hlive1)
              (by rw [hcc.1] at hlive2; exact hlive2)).1]
            exact hnone q hq1 hq2
          · have : b.clean_up.next_write = b.next_write := hcc.1
            rw [← this]
            exact hnewslot.1
        · have : b.clean_up.next_write = b.next_write := hcc.1
          rw [← this]
          exact hnewslot.2

end CoalescingRingBuffer

namespace CoalescingRingBuffer

variable {K V : Type}

/-- Characterization of the drain loop when every slot of the claimed range
is populated and the range's physical slots are distinct: the loop
succeeds, returns the slot values in ascending position order, empties
exactly those slots and touches nothing else. -/
theorem fillLoopAux_spec (mask : Nat) (n : Nat) :
    ∀ (vs : List (Option V)) (p : Nat),
    (∀ q, p ≤ q → q < p + n → (vs.getD (q &&& mask) none).isSome) →
    (∀ q r, p ≤ q → q < p + n → p ≤ r → r < p + n → q ≠ r →
      q &&& mask ≠ r &&& mask) →
    ∃ l vs', fillLoopAux mask vs p n = some (l, vs') ∧
      l.map some =
        (List.range' p n).map (fun q => vs.getD (q &&& mask) none) ∧
      vs'.length = vs.length ∧
      (∀ q, p ≤ q → q < p + n → vs'.getD (q &&& mask) none = none) ∧
      (∀ i, (∀ q, p ≤ q → q < p + n → q &&& mask ≠ i) →
        ∀ dv : Option V, vs'.getD i dv = vs.getD i dv) := by
  induction n with
  | zero =>
      intro vs p hpop hinj
      exact ⟨[], vs, rfl, rfl, rfl, fun q hq1 hq2 => by omega,
        fun i hi dv => rfl⟩
  | succ n ih =>
      intro vs p hpop hinj
      have hsome := hpop p le_rfl (by omega)
      cases hv : vs.getD (p &&& mask) none with
      | none =>
          rw [hv] at hsome
          cases hsome
      | some v =>
          have hplt : p &&& mask < vs.length := lt_length_of_getD_isSome hsome
          obtain ⟨l, vs', hfill, hmap, hlen, herased, hframe⟩ :=
            ih (vs.set (p &&& mask) none) (p + 1)
              (by
                intro q hq1 hq2
                rw [getD_set_ne _ _ _ (hinj p q (by omega) (by omega)
                  (by omega) (by omega) (by omega))]
                exact hpop q (by omega) (by omega))
              (fun q r hq1 hq2 hr1 hr2 hqr =>
                hinj q r (by omega) (by omega) (by omega) (by omega) hqr)
          refine ⟨v :: l, vs', ?_, ?_, ?_, ?_, ?_⟩
          · rw [fillLoopAux, hv, hfill]
          · rw [List.range'_succ]
            simp only [List.map_cons]
            congr 1
            · rw [hv]
            · rw [hmap]
              apply List.map_congr_left
              intro q hmem
              rw [List.mem_range'] at hmem
              obtain ⟨j, hj1, hj2⟩ := hmem
              rw [getD_set_ne _ _ _ (hinj p q (by omega) (by omega)
                (by omega) (by omega) (by omega))]
          · rw [hlen]
            simp
          · intro q hq1 hq2
            by_cases hqp : q = p
            · subst hqp
              rw [hframe (q &&& mask)
                (fun r hr1 hr2 => hinj r q (by omega) (by omega) (by omega)
                  (by omega) (by omega))
                none]
              rw [getD_set_self _ _ _ _ hplt]
            · exact herased q (by omega) (by omega)
          · intro i hi dv
            rw [hframe i (fun q hq1 hq2 => hi q (by omega) (by omega)) dv]
            rw [getD_set_ne _ _ _ (hi p le_rfl (by omega))]

/-- Characterization of the drain loop when every slot of the claimed range
is populated and the range's physical slots are distinct: the loop
succeeds, returns the slot values in ascending position order, empties
exactly those slots and touches nothing else. -/
theorem fillLoop_spec (vs : List (Option V)) (mask p claim : Nat) :
    (∀ q, p ≤ q → q < claim → (vs.getD (q &&& mask) none).isSome) →
    (∀ q r, p ≤ q → q < claim → p ≤ r → r < claim → q ≠ r →
      q &&& mask ≠ r &&& mask) →
    ∃ l vs', fillLoop vs mask p claim = some (l, vs') ∧
      l.map some =
        (List.range' p (claim - p)).map (fun q => vs.getD (q &&& mask) none) ∧
      vs'.length = vs.length ∧
      (∀ q, p ≤ q → q < claim → vs'.getD (q &&& mask) none = none) ∧
      (∀ i, (∀ q, p ≤ q → q < claim → q &&& mask ≠ i) →
        ∀ dv : Option V, vs'.getD i dv = vs.getD i dv) := by
  intro hpop hinj
  obtain ⟨l, vs', h1, h2, h3, h4, h5⟩ := fillLoopAux_spec mask (claim - p) vs p
    (fun q hq1 hq2 => hpop q hq1 (by omega))
    (fun q r hq1 hq2 hr1 hr2 hqr =>
      hinj q r hq1 (by omega) hr1 (by omega) hqr)
  exact ⟨l, vs', h1, h2, h3,
    fun q hq1 hq2 => h4 q hq1 (by omega),
    fun i hi dv => h5 i (fun q hq1 hq2 => hi q hq1 (by omega)) dv⟩

end CoalescingRingBuffer

namespace CoalescingRingBuffer

variable {K V : Type}

/-- `fill` on a well-formed buffer: succeeds, returns the values of
positions `(last_read, claim)` in ascending order, publishes
`first_write := claim` and `last_read := claim - 1`, drains exactly the
claimed slots, and preserves well-formedness. -/
theorem fill_spec [DecidableEq K] {b : CoalescingRingBuffer K V}
    (hWF : b.WF) (claim : Nat) (hc1 : b.last_read + 1 ≤ claim)
    (hc2 : claim ≤ b.next_write) :
    ∃ l b', fill b claim = some (l, b') ∧
      l.map some = (List.range' (b.last_read + 1) (claim - b.last_read - 1)).map
        (fun q => b.valAt q) ∧
      b'.next_write = b.next_write ∧
      b'.last_cleaned = b.last_cleaned ∧
      b'.rejection_count = b.rejection_count ∧
      b'.mask = b.mask ∧
      b'.capacity = b.capacity ∧
      b'.first_write = claim ∧
      b'.last_read = claim - 1 ∧
      b'.keys = b.keys ∧
      (∀ q, b.last_read < q → q < claim → b'.valAt q = none) ∧
      (∀ q, claim ≤ q → q < b.next_write → b'.valAt q = b.valAt q) ∧
      b'.WF := by
  obtain ⟨h1, h2, h3, h4, h5, h6, h7, h8, h9, h10⟩ := hWF
  have hWF' : b.WF := ⟨h1, h2, h3, h4, h5, h6, h7, h8, h9, h10⟩
  obtain ⟨l, vs', hfill, hmap, hlen, herased, hframe⟩ :=
    fillLoop_spec b.values b.mask (b.last_read + 1) claim
      (fun q hq1 hq2 => h9 q (by omega) (by omega))
      (fun q r hq1 hq2 hr1 hr2 hqr =>
        slot_ne hWF' (by omega) (by omega) (by omega) (by omega) hqr)
  refine ⟨l,
    { b with first_write := claim, values := vs', last_read := claim - 1 },
    ?_, ?_, rfl, rfl, rfl, rfl, rfl, rfl, rfl, rfl, ?_, ?_, ?_⟩
  · unfold fill
    simp only
    rw [hfill]
  · rw [hmap]
    apply List.map_congr_left
    intro q hmem
    rfl
  · intro q hq1 hq2
    unfold valAt
    simp only
    exact herased q (by omega) hq2
  · intro q hq1 hq2
    unfold valAt
    simp only
    refine hframe (q &&& b.mask)
      (fun r hr1 hr2 =>
        slot_ne hWF' (by omega) (by omega) (by omega) (by omega) (by omega))
      none
  · refine ⟨h1, h2, h3, by simpa [hlen] using h4, by simp only; omega,
      by simp only; omega, by simp only; omega, by simp only; omega, ?_, ?_⟩
    · intro q hq1 hq2
      replace hq1 : q < b.next_write := hq1
      replace hq2 : (claim - 1 : Nat) < q := hq2
      unfold valAt
      simp only
      rw [hframe (q &&& b.mask)
        (fun r hr1 hr2 =>
          slot_ne hWF' (by omega) (by omega) (by omega) (by omega) (by omega))
        none]
      exact h9 q hq1 (by omega)
    · intro p hp q hq hcond
      replace hp : p < b.next_write := hp
      replace hq : q < b.next_write := hq
      obtain ⟨hfp, hfq, hpq, hkeyed⟩ := hcond
      replace hfp : claim ≤ p := hfp
      replace hfq : claim ≤ q := hfq
      have hkp :
          ({ b with first_write := claim, values := vs', last_read := claim - 1 } : CoalescingRingBuffer K V).keyAt p = b.keyAt p := rfl
      have hkq :
          ({ b with first_write := claim, values := vs', last_read := claim - 1 } : CoalescingRingBuffer K V).keyAt q = b.keyAt q := rfl
      rw [hkp, hkq]
      rw [hkp] at hkeyed
      exact h10 p hp q hq ⟨by omega, by omega, hpq, hkeyed⟩

/-- `poll` claims `min (first_write + max) next_write`. -/
theorem poll_eq_fill (b : CoalescingRingBuffer K V) (m : Nat) :
    poll b m = fill b (min (b.first_write + m) b.next_write) := rfl

theorem poll_all_eq_fill (b : CoalescingRingBuffer K V) :
    poll_all b = fill b b.next_write := rfl

/-- For any budget covering the published range, `poll` and `poll_all`
agree. -/
theorem poll_eq_poll_all [DecidableEq K] (b : CoalescingRingBuffer K V)
    (m : Nat) (h : b.next_write ≤ b.first_write + m) :
    poll b m = poll_all b := by
  rw [poll_eq_fill, poll_all_eq_fill, Nat.min_eq_right h]

end CoalescingRingBuffer

namespace CoalescingRingBuffer

variable {K V : Type}

/-- The counter inequalities of spec section 8, plus the size bound. -/
def CounterInv (b : CoalescingRingBuffer K V) : Prop :=
  b.last_cleaned ≤ b.last_read ∧
  b.last_read + 1 = b.first_write ∧
  b.first_write ≤ b.next_write ∧
  b.next_write - b.last_read - 1 ≤ b.capacity

theorem counterInv_new (c : Nat) : (new c : CoalescingRingBuffer K V).CounterInv := by
  refine ⟨Nat.le_refl 0, rfl, Nat.le_refl 1, ?_⟩
  show 1 - 0 - 1 ≤ _
  simp

theorem counterInv_add {b : CoalescingRingBuffer K V} (kh : KeyHolder K)
    (v : V) (h : b.CounterInv) : (add b kh v).2.CounterInv := by
  obtain ⟨h1, h2, h3, h4⟩ := h
  by_cases hfull : b.size = b.capacity
  · rw [add_of_full _ _ hfull]
    exact ⟨h1, h2, h3, h4⟩
  · rw [add_of_not_full _ _ hfull]
    have hcc := clean_up_counters b
    have hsc := store_counters b.clean_up kh v
    have hsz : b.size = b.next_write - b.last_read - 1 := rfl
    refine ⟨?_, ?_, ?_, ?_⟩
    · rw [hsc.2.1, hsc.2.2.2.2.2.2.1, hcc.2.2.2.2.2.2.1, hcc.2.2.2.2.2.1]
    · rw [hsc.2.2.2.2.2.2.1, hsc.2.2.2.2.2.1, hcc.2.2.2.2.2.1, hcc.2.2.2.2.1]
      exact h2
    · rw [hsc.2.2.2.2.2.1, hsc.1, hcc.2.2.2.2.1, hcc.1]
      omega
    · rw [hsc.1, hsc.2.2.2.2.2.2.1, hsc.2.2.2.2.1, hcc.1, hcc.2.2.2.2.2.1,
        hcc.2.2.2.1]
      omega

theorem counterInv_offer [DecidableEq K] {b : CoalescingRingBuffer K V}
    (k : K) (v : V) (h : b.CounterInv) : (offer b k v).2.CounterInv := by
  cases hscan : b.scan (KeyHolder.NonEmpty k) b.first_write b.next_write with
  | some p =>
      have heq : offer b k v =
          (if b.first_write ≤ p then
            (true, { b with values := b.values.set (p &&& b.mask) (some v) })
          else
            add { b with values := b.values.set (p &&& b.mask) (some v) }
              (KeyHolder.NonEmpty k) v) := by
        simp only [offer, hscan]
      rw [heq]
      by_cases hle : b.first_write ≤ p
      · rw [if_pos hle]
        exact h
      · rw [if_neg hle]
        exact counterInv_add _ _ h
  | none =>
      have heq : offer b k v = add b (KeyHolder.NonEmpty k) v := by
        simp only [offer, hscan]
      rw [heq]
      exact counterInv_add _ _ h

theorem fill_counters {b : CoalescingRingBuffer K V} {claim : Nat}
    {l : List V} {b' : CoalescingRingBuffer K V}
    (h : fill b claim = some (l, b')) :
    b'.next_write = b.next_write ∧ b'.last_cleaned = b.last_cleaned ∧
    b'.capacity = b.capacity ∧ b'.first_write = claim ∧
    b'.last_read = claim - 1 ∧ b'.rejection_count = b.rejection_count ∧
    b'.mask = b.mask ∧ b'.keys = b.keys := by
  unfold fill at h
  simp only at h
  cases hfl : fillLoop b.values b.mask (b.last_read + 1) claim with
  | none => rw [hfl] at h; cases h
  | some r =>
      rw [hfl] at h
      cases r with
      | mk l0 vs0 =>
          simp only at h
          cases h
          exact ⟨rfl, rfl, rfl, rfl, rfl, rfl, rfl, rfl⟩

theorem counterInv_fill {b : CoalescingRingBuffer K V} {claim : Nat}
    {l : List V} {b' : CoalescingRingBuffer K V} (hb : b.CounterInv)
    (hclaim1 : b.first_write ≤ claim) (hclaim2 : claim ≤ b.next_write)
    (h : fill b claim = some (l, b')) : b'.CounterInv := by
  obtain ⟨h1, h2, h3, h4⟩ := hb
  have hc := fill_counters h
  obtain ⟨e1, e2, e3, e4, e5, e6, e7, e8⟩ := hc
  refine ⟨?_, ?_, ?_, ?_⟩
  · rw [e2, e5]
    omega
  · rw [e5, e4]
    omega
  · rw [e4, e1]
    omega
  · rw [e1, e5, e3]
    omega

/-- Every state reachable by the sequential API satisfies the counter
invariants. -/
theorem counterInv_reachable [DecidableEq K] {b : CoalescingRingBuffer K V}
    (h : Reachable b) : b.CounterInv := by
  induction h with
  | base c hc => exact counterInv_new c
  | offer_step b k v hr ih => exact counterInv_offer k v ih
  | offer_value_only_step b v hr ih => exact counterInv_add _ _ ih
  | poll_step b m l b' hr hp ih =>
      refine counterInv_fill ih ?_ ?_ hp
      · exact Nat.le_min.2 ⟨Nat.le_add_right _ _, ih.2.2.1⟩
      · exact Nat.min_le_right _ _
  | poll_all_step b l b' hr hp ih =>
      exact counterInv_fill ih ih.2.2.1 (Nat.le_refl _) hp

end CoalescingRingBuffer

namespace CoalescingRingBuffer

/-- One smear step: or-ing in a right shift by `k` doubles the window of
source bits that can set a given bit. -/
theorem or_shift_step (m k : Nat) (P : Nat → Prop)
    (hm : ∀ i, m.testBit i = true ↔ ∃ j, j < k ∧ P (i + j)) :
    ∀ i, (m ||| m >>> k).testBit i = true ↔ ∃ j, j < k + k ∧ P (i + j) := by
  intro i
  rw [Nat.testBit_or, Bool.or_eq_true, Nat.testBit_shiftRight]
  rw [hm i, hm (k + i)]
  constructor
  · rintro (⟨j, hj, h⟩ | ⟨j, hj, h⟩)
    · exact ⟨j, by omega, h⟩
    · refine ⟨j + k, by omega, ?_⟩
      have he : i + (j + k) = k + i + j := by omega
      rw [he]
      exact h
  · rintro ⟨j, hj, h⟩
    by_cases hjk : j < k
    · exact Or.inl ⟨j, hjk, h⟩
    · refine Or.inr ⟨j - k, by omega, ?_⟩
      have he : k + i + (j - k) = i + j := by omega
      rw [he]
      exact h

/-- On the range the 16-shift smear covers (`2 ≤ c ≤ 2^32`),
`next_power_of_two` returns `2 ^ (log2 (c-1) + 1)`. -/
theorem npt_eq_two_pow {c : Nat} (h1c : 2 ≤ c) (h2c : c ≤ 2 ^ 32) :
    next_power_of_two c = 2 ^ (Nat.log2 (c - 1) + 1) := by
  unfold next_power_of_two
  simp only
  set n := c - 1 with hn
  set L := Nat.log2 n with hL
  have hn1 : 1 ≤ n := by omega
  have hn2 : n < 2 ^ 32 := by omega
  have hL31 : L < 32 := (Nat.log2_lt (by omega)).2 hn2
  have hlow : 2 ^ L ≤ n := Nat.log2_self_le (by omega)
  have hhigh : n < 2 ^ (L + 1) := Nat.lt_log2_self
  have htbL : n.testBit L = true := by
    rw [Nat.testBit_to_div_mod]
    have hdiv : n / 2 ^ L = 1 := by
      apply Nat.div_eq_of_lt_le
      · simpa using hlow
      · have he : (1 + 1) * 2 ^ L = 2 ^ (L + 1) := by ring
        rw [he]
        exact hhigh
    rw [hdiv]
    rfl
  have hb0 : ∀ i, n.testBit i = true ↔ ∃ j, j < 1 ∧ n.testBit (i + j) = true := by
    intro i
    constructor
    · intro h
      exact ⟨0, by omega, by simpa using h⟩
    · rintro ⟨j, hj, h⟩
      have hj0 : j = 0 := by omega
      subst hj0
      simpa using h
  have hb1 := or_shift_step n 1 (fun t => n.testBit t = true) hb0
  have hb2 := or_shift_step _ 2 (fun t => n.testBit t = true) hb1
  have hb4 := or_shift_step _ 4 (fun t => n.testBit t = true) hb2
  have hb8 := or_shift_step _ 8 (fun t => n.testBit t = true) hb4
  have hb16 := or_shift_step _ 16 (fun t => n.testBit t = true) hb8
  simp only at hb16
  set s1 := n ||| n >>> 1 with hs1
  set s2 := s1 ||| s1 >>> 2 with hs2
  set s3 := s2 ||| s2 >>> 4 with hs3
  set s4 := s3 ||| s3 >>> 8 with hs4
  set s5 := s4 ||| s4 >>> 16 with hs5
  have hfinal : s5 = 2 ^ (L + 1) - 1 := by
    apply Nat.eq_of_testBit_eq
    intro i
    rw [Nat.testBit_two_pow_sub_one]
    by_cases hiL : i < L + 1
    · rw [decide_eq_true hiL]
      exact (hb16 i).2 ⟨L - i, by omega,
        by rw [show i + (L - i) = L by omega]; exact htbL⟩
    · rw [decide_eq_false hiL]
      apply Bool.eq_false_iff.2
      intro hc
      obtain ⟨j, hj, h⟩ := (hb16 i).1 hc
      have h2 : n.testBit (i + j) = true := h
      have hlt : n < 2 ^ (i + j) :=
        lt_of_lt_of_le hhigh (Nat.pow_le_pow_right (by omega) (by omega))
      rw [Nat.testBit_lt_two_pow hlt] at h2
      cases h2
  rw [hfinal]
  have hpos : 0 < 2 ^ (L + 1) := Nat.pow_pos (by omega)
  omega

end CoalescingRingBuffer

namespace CoalescingRingBuffer

/-- A capacity-2 buffer filled with keys 1 and 2. -/
def exFull : CoalescingRingBuffer Nat Nat :=
  (offer (offer (new 2) 1 10).2 2 20).2

/-- A capacity-4 buffer holding three keyless entries 10, 20, 30. -/
def exThree : CoalescingRingBuffer Nat Nat :=
  (offer_value_only (offer_value_only (offer_value_only (new 4) 10).2 20).2 30).2

/-- `exFull` after the consumer drained it (so `last_cleaned < last_read`). -/
def exDrained : CoalescingRingBuffer Nat Nat :=
  ((poll_all exFull).getD ([], exFull)).2

/-- C6, counterexample: the claim requires the effective capacity to be both
the smallest power of two at least the request and never below 2; `new 1`
yields capacity 1 (the smearing rounds 1 up to 1, there is no minimum of
2), so the conjunction fails at requested capacity 1. -/
theorem C6_counterexample :
    (new 1 : CoalescingRingBuffer Nat Nat).capacity = 1 ∧
    ¬2 ≤ (new 1 : CoalescingRingBuffer Nat Nat).capacity := by
  exact ⟨by decide, by decide⟩

/-- C6, amended: for every requested capacity `1 ≤ c ≤ 2^32` (the range the
five shifts of the smear cover on a 64-bit `usize`), the constructed
buffer's capacity is the smallest power of two that is at least `c`; the
minimum effective capacity is 1 (at `c = 1`), not 2. -/
theorem C6_capacity_rounding {K V : Type} (c : Nat) (h1 : 1 ≤ c)
    (h2 : c ≤ 2 ^ 32) :
    ∃ k : Nat, (new c : CoalescingRingBuffer K V).capacity = 2 ^ k ∧
      c ≤ 2 ^ k ∧ ∀ j : Nat, c ≤ 2 ^ j → 2 ^ k ≤ 2 ^ j := by
  have hcap : (new c : CoalescingRingBuffer K V).capacity
      = next_power_of_two c := rfl
  by_cases hc1 : c = 1
  · subst hc1
    refine ⟨0, ?_, by omega, ?_⟩
    · rw [hcap]
      rfl
    · intro j hj
      have := Nat.pow_pos (n := j) (show 0 < 2 by omega)
      omega
  · have h2c : 2 ≤ c := by omega
    refine ⟨Nat.log2 (c - 1) + 1, ?_, ?_, ?_⟩
    · rw [hcap]
      exact npt_eq_two_pow h2c h2
    · have := Nat.lt_log2_self (n := c - 1)
      omega
    · intro j hj
      apply Nat.pow_le_pow_right (by omega)
      have hlow : 2 ^ Nat.log2 (c - 1) ≤ c - 1 := Nat.log2_self_le (by omega)
      have hlt : 2 ^ Nat.log2 (c - 1) < 2 ^ j := by omega
      have := (Nat.pow_lt_pow_iff_right (show 1 < 2 by omega)).1 hlt
      omega

/-- C6, witness: requesting 25 gives the smallest power of two at least
25 (namely 32, as checked separately by evaluation). -/
theorem C6_capacity_rounding_witness :
    (1 ≤ 25 ∧ 25 ≤ 2 ^ 32 ∧
      (new 25 : CoalescingRingBuffer Nat Nat).capacity = 32) ∧
    ∃ k : Nat, (new 25 : CoalescingRingBuffer Nat Nat).capacity = 2 ^ k ∧
      25 ≤ 2 ^ k ∧ ∀ j : Nat, 25 ≤ 2 ^ j → 2 ^ k ≤ 2 ^ j :=
  ⟨⟨by decide, by decide, by decide⟩,
    C6_capacity_rounding 25 (by decide) (by decide)⟩

/-- C2: `offer` returns false exactly when the buffer is full (`size =
capacity`) and no in-flight position of `[first_write, next_write)` holds
an equal key; on that failure the resulting state is the old one with only
`rejection_count` bumped by one (slots, size and every position counter
unchanged); `offer_value_only` is rejected exactly when full, with the
same sole effect. -/
theorem C2_offer_rejection {K V : Type} [DecidableEq K]
    (b : CoalescingRingBuffer K V) (k : K) (v : V) :
    ((offer b k v).1 = false ↔
      (b.size = b.capacity ∧
        ∀ p, b.first_write ≤ p → p < b.next_write →
          b.keyAt p ≠ KeyHolder.NonEmpty k)) ∧
    ((offer b k v).1 = false →
      (offer b k v).2 = { b with rejection_count := b.rejection_count + 1 }) ∧
    ((offer_value_only b v).1 = false ↔ b.size = b.capacity) ∧
    ((offer_value_only b v).1 = false →
      (offer_value_only b v).2 =
        { b with rejection_count := b.rejection_count + 1 }) := by
  have hvo : ∀ kh : KeyHolder K,
      ((add b kh v).1 = false ↔ b.size = b.capacity) ∧
      ((add b kh v).1 = false →
        (add b kh v).2 = { b with rejection_count := b.rejection_count + 1 }) := by
    intro kh
    by_cases hfull : b.size = b.capacity
    · rw [add_of_full _ _ hfull]
      exact ⟨by simpa using hfull, fun _ => rfl⟩
    · rw [add_of_not_full _ _ hfull]
      exact ⟨by simpa using hfull, fun h => by simp at h⟩
  cases hscan : b.scan (KeyHolder.NonEmpty k) b.first_write b.next_write with
  | some p =>
      have heq := offer_of_firstMatch hscan v
      have hb := scan_eq_some_bound hscan
      refine ⟨?_, ?_, (hvo _).1, (hvo _).2⟩
      · rw [heq]
        constructor
        · intro h
          simp at h
        · rintro ⟨_, hall⟩
          exact absurd hb.2.2 (hall p hb.1 hb.2.1)
      · rw [heq]
        intro h
        simp at h
  | none =>
      have heq : offer b k v = add b (KeyHolder.NonEmpty k) v := by
        simp only [offer, hscan]
      have hnone := (scan_eq_none_iff b _ _ _).1 hscan
      refine ⟨?_, ?_, (hvo _).1, (hvo _).2⟩
      · rw [heq, (hvo _).1]
        exact ⟨fun h => ⟨h, hnone⟩, fun h => h.1⟩
      · rw [heq]
        exact (hvo _).2

/-- C2, witness: on the full buffer `exFull`, offering the fresh key 4 is
rejected with only `rejection_count` bumped, and so is a keyless offer. -/
theorem C2_offer_rejection_witness :
    ((offer exFull 4 99).1 = false ↔
      (exFull.size = exFull.capacity ∧
        ∀ p, exFull.first_write ≤ p → p < exFull.next_write →
          exFull.keyAt p ≠ KeyHolder.NonEmpty 4)) ∧
    ((offer exFull 4 99).1 = false →
      (offer exFull 4 99).2 =
        { exFull with rejection_count := exFull.rejection_count + 1 }) ∧
    ((offer_value_only exFull 99).1 = false ↔ exFull.size = exFull.capacity) ∧
    ((offer_value_only exFull 99).1 = false →
      (offer_value_only exFull 99).2 =
        { exFull with rejection_count := exFull.rejection_count + 1 }) :=
  C2_offer_rejection exFull 4 99

/-- C10: on any well-formed state (in particular any sequentially reachable
one), `poll 0` returns the empty sequence and the buffer is returned
entirely unchanged, every counter and slot included. -/
theorem C10_poll_zero {K V : Type} [DecidableEq K]
    {b : CoalescingRingBuffer K V} (hWF : b.WF) :
    poll b 0 = some ([], b) := by
  have h6 := hWF.2.2.2.2.2.1
  have h7 := hWF.2.2.2.2.2.2.1
  rw [poll_eq_fill]
  have hclaim : min (b.first_write + 0) b.next_write = b.first_write := by
    omega
  rw [hclaim]
  have hloop : fillLoop b.values b.mask (b.last_read + 1) b.first_write
      = some ([], b.values) := by
    unfold fillLoop
    rw [show b.first_write - (b.last_read + 1) = 0 by omega]
    rfl
  unfold fill
  simp only
  rw [hloop]
  simp only
  rw [show b.first_write - 1 = b.last_read by omega]

/-- C10, witness: `poll 0` on the concrete full buffer is the identity. -/
theorem C10_poll_zero_witness : poll exFull 0 = some ([], exFull) :=
  C10_poll_zero (by decide)

/-- C4: in every state reachable from a fresh buffer by `offer`,
`offer_value_only`, `poll` and `poll_all`, the counters satisfy
`last_cleaned ≤ last_read < first_write ≤ next_write` and the logical size
`next_write - last_read - 1` (which is what `size` returns) lies between 0
and the capacity. -/
theorem C4_reachable_counters {K V : Type} [DecidableEq K]
    {b : CoalescingRingBuffer K V} (h : Reachable b) :
    b.last_cleaned ≤ b.last_read ∧ b.last_read < b.first_write ∧
    b.first_write ≤ b.next_write ∧
    b.size = b.next_write - b.last_read - 1 ∧
    0 ≤ b.next_write - b.last_read - 1 ∧
    b.next_write - b.last_read - 1 ≤ b.capacity := by
  obtain ⟨h1, h2, h3, h4⟩ := counterInv_reachable h
  exact ⟨h1, by omega, h3, rfl, Nat.zero_le _, h4⟩

/-- C4, witness: the invariant instantiated at the freshly constructed
capacity-2 buffer. -/
theorem C4_reachable_counters_witness :
    (new 2 : CoalescingRingBuffer Nat Nat).last_cleaned ≤
      (new 2 : CoalescingRingBuffer Nat Nat).last_read ∧
    (new 2 : CoalescingRingBuffer Nat Nat).last_read <
      (new 2 : CoalescingRingBuffer Nat Nat).first_write ∧
    (new 2 : CoalescingRingBuffer Nat Nat).first_write ≤
      (new 2 : CoalescingRingBuffer Nat Nat).next_write ∧
    (new 2 : CoalescingRingBuffer Nat Nat).size =
      (new 2 : CoalescingRingBuffer Nat Nat).next_write -
        (new 2 : CoalescingRingBuffer Nat Nat).last_read - 1 ∧
    0 ≤ (new 2 : CoalescingRingBuffer Nat Nat).next_write -
      (new 2 : CoalescingRingBuffer Nat Nat).last_read - 1 ∧
    (new 2 : CoalescingRingBuffer Nat Nat).next_write -
      (new 2 : CoalescingRingBuffer Nat Nat).last_read - 1 ≤
      (new 2 : CoalescingRingBuffer Nat Nat).capacity :=
  C4_reachable_counters (Reachable.base 2 (by decide))

end CoalescingRingBuffer

namespace CoalescingRingBuffer

/-- C8: `clean_up` erases exactly the positions of
`(last_cleaned, last_read]` - setting their key holders to `Empty` and
their value cells to absent - then publishes `last_cleaned := last_read`;
every slot not addressed by that range (in particular the slot of every
live position above `last_read`) is untouched, the other counters are
untouched, and when `last_cleaned` already equals `last_read` the call is
the identity. -/
theorem C8_clean_up_spec {K V : Type} [DecidableEq K]
    {b : CoalescingRingBuffer K V} (hWF : b.WF) :
    (clean_up b).last_cleaned = b.last_read ∧
    (b.last_cleaned = b.last_read → clean_up b = b) ∧
    (∀ y, b.last_cleaned < y → y ≤ b.last_read →
      (clean_up b).keyAt y = KeyHolder.Empty ∧ (clean_up b).valAt y = none) ∧
    (∀ p, b.last_read < p → p < b.next_write →
      (clean_up b).keyAt p = b.keyAt p ∧ (clean_up b).valAt p = b.valAt p) ∧
    (∀ i, (∀ y, b.last_cleaned < y → y ≤ b.last_read → y &&& b.mask ≠ i) →
      (clean_up b).keys.getD i KeyHolder.Empty = b.keys.getD i KeyHolder.Empty ∧
      (clean_up b).values.getD i none = b.values.getD i none) ∧
    (clean_up b).next_write = b.next_write ∧
    (clean_up b).first_write = b.first_write ∧
    (clean_up b).last_read = b.last_read ∧
    (clean_up b).rejection_count = b.rejection_count := by
  have hc := clean_up_counters b
  refine ⟨hc.2.2.2.2.2.2.1, clean_up_eq_self b, ?_,
    fun p hp1 hp2 => clean_up_live hWF hp1 hp2,
    fun i h => clean_up_getD_frame b i h _ _,
    hc.1, hc.2.2.2.2.1, hc.2.2.2.2.2.1, hc.2.1⟩
  intro y hy1 hy2
  have he := clean_up_erased b hy1 hy2
  unfold keyAt valAt
  rw [hc.2.2.1]
  exact he

/-- C8, witness: cleanup on the drained buffer `exDrained` (where
`last_cleaned = 0 < 2 = last_read`) publishes `last_cleaned = 2`. -/
theorem C8_clean_up_spec_witness :
    (clean_up exDrained).last_cleaned = exDrained.last_read ∧
    (clean_up exDrained).keyAt 1 = KeyHolder.Empty ∧
    (clean_up exDrained).valAt 2 = none :=
  ⟨(C8_clean_up_spec (by decide)).1,
    ((C8_clean_up_spec (b := exDrained) (by decide)).2.2.1 1 (by decide)
      (by decide)).1,
    ((C8_clean_up_spec (b := exDrained) (by decide)).2.2.1 2 (by decide)
      (by decide)).2⟩

/-- C3: `poll max` claims `claim = min (first_write + max) next_write`,
returns the at most `max` values sitting at positions
`(last_read, claim)` in ascending position order, publishes
`first_write := claim` and `last_read := claim - 1`, takes the value out
of every claimed slot, and leaves the slots of the unclaimed published
positions (and all keys and `next_write`) unchanged; `poll_all` is `fill`
at `next_write`, and any `poll` whose budget covers the published range
equals `poll_all`. -/
theorem C3_poll_contract {K V : Type} [DecidableEq K]
    {b : CoalescingRingBuffer K V} (hWF : b.WF) (m : Nat) :
    (∃ l b', poll b m = some (l, b') ∧
      l.length ≤ m ∧
      l.map some = (List.range' (b.last_read + 1)
        (min (b.first_write + m) b.next_write - b.last_read - 1)).map
        (fun q => b.valAt q) ∧
      b'.first_write = min (b.first_write + m) b.next_write ∧
      b'.last_read = min (b.first_write + m) b.next_write - 1 ∧
      b'.next_write = b.next_write ∧ b'.keys = b.keys ∧
      (∀ q, b.last_read < q → q < min (b.first_write + m) b.next_write →
        b'.valAt q = none) ∧
      (∀ q, min (b.first_write + m) b.next_write ≤ q → q < b.next_write →
        b'.valAt q = b.valAt q)) ∧
    poll_all b = fill b b.next_write ∧
    (∀ m', b.next_write ≤ b.first_write + m' → poll b m' = poll_all b) := by
  refine ⟨?_, rfl, fun m' hm' => poll_eq_poll_all b m' hm'⟩
  have h6 := hWF.2.2.2.2.2.1
  have h7 := hWF.2.2.2.2.2.2.1
  obtain ⟨l, b', hfill, hmap, e1, e2, e3, e4, e5, e6, e7, e8, hdr, hfr, hwf'⟩ :=
    fill_spec hWF (min (b.first_write + m) b.next_write) (by omega) (by omega)
  refine ⟨l, b', by rw [poll_eq_fill]; exact hfill, ?_, hmap, e6, e7, e1, e8,
    hdr, hfr⟩
  have hlen := congrArg List.length hmap
  simp at hlen
  omega

/-- C3, witness: polling 2 of the three queued values of `exThree`. -/
theorem C3_poll_contract_witness :
    ∃ l b', poll exThree 2 = some (l, b') ∧
      l.length ≤ 2 ∧
      l.map some = (List.range' (exThree.last_read + 1)
        (min (exThree.first_write + 2) exThree.next_write -
          exThree.last_read - 1)).map (fun q => exThree.valAt q) ∧
      b'.first_write = min (exThree.first_write + 2) exThree.next_write ∧
      b'.last_read = min (exThree.first_write + 2) exThree.next_write - 1 ∧
      b'.next_write = exThree.next_write ∧ b'.keys = exThree.keys ∧
      (∀ q, exThree.last_read < q →
        q < min (exThree.first_write + 2) exThree.next_write →
        b'.valAt q = none) ∧
      (∀ q, min (exThree.first_write + 2) exThree.next_write ≤ q →
        q < exThree.next_write → b'.valAt q = exThree.valAt q) :=
  (C3_poll_contract (by decide) 2).1

end CoalescingRingBuffer

namespace CoalescingRingBuffer

variable {K V : Type}

theorem getElem_of_map_some {α : Type _} {l : List α} {y : List (Option α)}
    (h : l.map some = y) {j : Nat} {v : α} (hy : y[j]? = some (some v)) :
    l[j]? = some v := by
  rw [← h, List.getElem?_map] at hy
  cases hl : l[j]? with
  | none => rw [hl] at hy; cases hy
  | some w =>
      rw [hl] at hy
      simp at hy
      rw [hy]

/-- C1: from any well-formed state, a successful `offer k v1` followed by
`offer k v2` has the second offer succeed by coalescing: it returns true,
consumes no slot (`next_write` and `size` unchanged), rewrites only the
value cell of the matched in-flight position `p`, and a `poll_all` then
delivers `v2` exactly where it would have delivered `v1` - the original
entry's position relative to all other entries (the claim's concrete
scenario `offer 1 v; offer 2 w; offer 1 v2; poll_all = [v2, w]`, with an
intervening different-key offer, is the final conjunct). -/
theorem C1_coalescing {K V : Type} [DecidableEq K]
    {b : CoalescingRingBuffer K V} {k : K} {v1 : V} (v2 : V) (hWF : b.WF)
    (h1 : (offer b k v1).1 = true) :
    ((offer (offer b k v1).2 k v2).1 = true ∧
      (offer (offer b k v1).2 k v2).2.next_write
        = (offer b k v1).2.next_write ∧
      size (offer (offer b k v1).2 k v2).2 = size (offer b k v1).2 ∧
      ∃ p, (offer b k v1).2.first_write ≤ p ∧
        p < (offer b k v1).2.next_write ∧
        (offer (offer b k v1).2 k v2).2 =
          { (offer b k v1).2 with
            values := (offer b k v1).2.values.set
              (p &&& (offer b k v1).2.mask) (some v2) } ∧
        ∃ l1 c1, poll_all (offer b k v1).2 = some (l1, c1) ∧
          l1[p - (offer b k v1).2.last_read - 1]? = some v1 ∧
          ∃ l2 c2, poll_all (offer (offer b k v1).2 k v2).2 = some (l2, c2) ∧
            l2 = l1.set (p - (offer b k v1).2.last_read - 1) v2) ∧
    ((offer (offer (offer (new 2 : CoalescingRingBuffer Nat Nat) 1 10).2
        2 20).2 1 30).1 = true ∧
      size (offer (offer (offer (new 2 : CoalescingRingBuffer Nat Nat) 1
        10).2 2 20).2 1 30).2 = 2 ∧
      (poll_all (offer (offer (offer (new 2 : CoalescingRingBuffer Nat Nat)
        1 10).2 2 20).2 1 30).2).map Prod.fst = some [30, 20]) := by
  refine ⟨?_, by decide, by decide, by decide⟩
  obtain ⟨p, hp1, hp2, hWF1, hFM1, hval1⟩ := offer_true_struct hWF h1
  set b1 := (offer b k v1).2 with hb1
  have heq2 := offer_of_firstMatch hFM1 v2
  rw [heq2]
  have h5 := hWF1.2.2.2.2.1
  have h6 := hWF1.2.2.2.2.2.1
  set b2 : CoalescingRingBuffer K V :=
    { b1 with values := b1.values.set (p &&& b1.mask) (some v2) } with hb2
  have hWF2 : b2.WF := set_value_WF hWF1 (by omega) hp2 v2
  have e2l : b2.last_read = b1.last_read := rfl
  have e2n : b2.next_write = b1.next_write := rfl
  refine ⟨rfl, rfl, rfl, p, hp1, hp2, rfl, ?_⟩
  obtain ⟨l1, c1, hfill1, hmap1, _⟩ :=
    fill_spec hWF1 b1.next_write (by omega) (by omega)
  obtain ⟨l2, c2, hfill2, hmap2, _⟩ :=
    fill_spec hWF2 b2.next_write (by rw [e2l, e2n]; omega) (by omega)
  rw [e2l, e2n] at hmap2
  set j := p - b1.last_read - 1 with hj
  set n := b1.next_write - b1.last_read - 1 with hn
  have hjn : j < n := by omega
  have hl1len : l1.length = n := by
    have := congrArg List.length hmap1
    simpa using this
  have hpoint : (List.range' (b1.last_read + 1) n).map (fun q => b2.valAt q)
      = ((List.range' (b1.last_read + 1) n).map
          (fun q => b1.valAt q)).set j (some v2) := by
    apply List.ext_getElem?
    intro i
    by_cases hij : i = j
    · rw [hij, List.getElem?_set_self (by simpa using hjn), List.getElem?_map,
        List.getElem?_range' _ _ hjn]
      simp only [Option.map_some, Nat.one_mul]
      rw [show b1.last_read + 1 + j = p by omega]
      show some (b2.valAt p) = some (some v2)
      exact congrArg some (set_value_valAt_self hWF1 p v2)
    · have hji : j ≠ i := fun h => hij h.symm
      rw [List.getElem?_set_ne hji, List.getElem?_map, List.getElem?_map]
      by_cases hin : i < n
      · rw [List.getElem?_range' _ _ hin]
        simp only [Option.map_some, Nat.one_mul]
        have hne : b1.last_read + 1 + i ≠ p := by omega
        show some (b2.valAt (b1.last_read + 1 + i))
          = some (b1.valAt (b1.last_read + 1 + i))
        exact congrArg some
          (set_value_valAt_ne hWF1 (by omega) hp2 (by omega) (by omega) hne v2)
      · rw [List.getElem?_eq_none (by simp; omega)]
        rfl
  have hmap2x : l2.map some = (l1.set j v2).map some := by
    rw [List.map_set, hmap1, hmap2, hpoint]
  have hl2 : l2 = l1.set j v2 :=
    (List.map_injective_iff.2 (Option.some_injective V)) hmap2x
  refine ⟨l1, c1, hfill1, ?_, l2, c2, hfill2, hl2⟩
  apply getElem_of_map_some hmap1
  rw [List.getElem?_map, List.getElem?_range' _ _ hjn]
  simp only [Option.map_some, Nat.one_mul]
  rw [show b1.last_read + 1 + j = p by omega]
  exact congrArg some hval1

/-- C1, witness: two consecutive offers of key 1 on a fresh buffer. -/
theorem C1_coalescing_witness :
    ((offer (offer (new 2 : CoalescingRingBuffer Nat Nat) 1 10).2 1 30).1
      = true ∧
      (offer (offer (new 2 : CoalescingRingBuffer Nat Nat) 1 10).2 1 30).2.next_write
        = (offer (new 2 : CoalescingRingBuffer Nat Nat) 1 10).2.next_write ∧
      size (offer (offer (new 2 : CoalescingRingBuffer Nat Nat) 1 10).2 1 30).2
        = size (offer (new 2 : CoalescingRingBuffer Nat Nat) 1 10).2 ∧
      ∃ p, (offer (new 2 : CoalescingRingBuffer Nat Nat) 1 10).2.first_write ≤ p ∧
        p < (offer (new 2 : CoalescingRingBuffer Nat Nat) 1 10).2.next_write ∧
        (offer (offer (new 2 : CoalescingRingBuffer Nat Nat) 1 10).2 1 30).2 =
          { (offer (new 2 : CoalescingRingBuffer Nat Nat) 1 10).2 with
            values := (offer (new 2 : CoalescingRingBuffer Nat Nat) 1
              10).2.values.set
              (p &&& (offer (new 2 : CoalescingRingBuffer Nat Nat) 1
                10).2.mask) (some 30) } ∧
        ∃ l1 c1, poll_all (offer (new 2 : CoalescingRingBuffer Nat Nat) 1
            10).2 = some (l1, c1) ∧
          l1[p - (offer (new 2 : CoalescingRingBuffer Nat Nat) 1
            10).2.last_read - 1]? = some 10 ∧
          ∃ l2 c2, poll_all (offer (offer (new 2 : CoalescingRingBuffer Nat
              Nat) 1 10).2 1 30).2 = some (l2, c2) ∧
            l2 = l1.set (p - (offer (new 2 : CoalescingRingBuffer Nat Nat) 1
              10).2.last_read - 1) 30) ∧
    ((offer (offer (offer (new 2 : CoalescingRingBuffer Nat Nat) 1 10).2
        2 20).2 1 30).1 = true ∧
      size (offer (offer (offer (new 2 : CoalescingRingBuffer Nat Nat) 1
        10).2 2 20).2 1 30).2 = 2 ∧
      (poll_all (offer (offer (offer (new 2 : CoalescingRingBuffer Nat Nat)
        1 10).2 2 20).2 1 30).2).map Prod.fst = some [30, 20]) :=
  C1_coalescing 30 (by decide) (by decide)

end CoalescingRingBuffer

namespace CoalescingRingBuffer

set_option maxHeartbeats 1000000 in
/-- C5: keyless entries are never coalesced: two `offer_value_only` calls
both succeed (given room) and the consumer receives `v1` then `v2` at
consecutive delivery indices, and a later keyed `offer` never overwrites a
`NonCollapsible` in-flight entry - the coalescing scan matches only keyed
holders, so the entry's key holder and value are untouched. -/
theorem C5_value_only {K V : Type} [DecidableEq K]
    {b : CoalescingRingBuffer K V} (hWF : b.WF) (v1 v2 : V)
    (hroom : b.size + 2 ≤ b.capacity) :
    ((offer_value_only b v1).1 = true ∧
      (offer_value_only (offer_value_only b v1).2 v2).1 = true ∧
      ∃ l c, poll_all (offer_value_only (offer_value_only b v1).2 v2).2
          = some (l, c) ∧
        l[b.size]? = some v1 ∧ l[b.size + 1]? = some v2) ∧
    (∀ (k : K) (w : V) (p : Nat), b.first_write ≤ p → p < b.next_write →
      b.keyAt p = KeyHolder.NonCollapsible →
      (offer b k w).2.keyAt p = KeyHolder.NonCollapsible ∧
      (offer b k w).2.valAt p = b.valAt p) := by
  have hsz : b.size = b.next_write - b.last_read - 1 := rfl
  have h5 := hWF.2.2.2.2.1
  have h6 := hWF.2.2.2.2.2.1
  have h7 := hWF.2.2.2.2.2.2.1
  have hWFc := clean_up_WF hWF
  have hcc := clean_up_counters b
  have hccl : b.clean_up.last_cleaned = b.clean_up.last_read := by
    rw [hcc.2.2.2.2.2.2.1, hcc.2.2.2.2.2.1]
  have hcsz : b.clean_up.size = b.size := by
    unfold size
    rw [hcc.1, hcc.2.2.2.2.2.1]
  have hccap : b.clean_up.capacity = b.capacity := hcc.2.2.2.1
  have hnc : ∀ (bx : CoalescingRingBuffer K V), ∀ p, bx.first_write ≤ p →
      p < bx.next_write → (KeyHolder.NonCollapsible : KeyHolder K).isKeyed →
      bx.keyAt p ≠ KeyHolder.NonCollapsible := by
    intro bx p _ _ hk
    simp [KeyHolder.isKeyed] at hk
  constructor
  · have hfull1 : b.size ≠ b.capacity := by omega
    have heq1 : offer_value_only b v1 = add b KeyHolder.NonCollapsible v1 :=
      rfl
    rw [heq1, add_of_not_full _ _ hfull1]
    have hWF1 : (store b.clean_up KeyHolder.NonCollapsible v1).WF :=
      store_WF hWFc hccl (by omega) (hnc _)
    have hsc1 := store_counters b.clean_up KeyHolder.NonCollapsible v1
    set b1 := store b.clean_up KeyHolder.NonCollapsible v1 with hb1
    have e1n : b1.next_write = b.next_write + 1 := by
      rw [hsc1.1, hcc.1]
    have e1r : b1.last_read = b.last_read := by
      rw [hsc1.2.2.2.2.2.2.1, hcc.2.2.2.2.2.1]
    have e1c : b1.last_cleaned = b.last_read := by
      rw [hsc1.2.1, hcc.2.2.2.2.2.2.1]
    have e1cap : b1.capacity = b.capacity := by
      rw [hsc1.2.2.2.2.1, hccap]
    have h1sz : b1.size = b.size + 1 := by
      unfold size
      rw [e1n, e1r]
      omega
    have hfull2 : b1.size ≠ b1.capacity := by
      rw [h1sz, e1cap]
      omega
    have heq2 : offer_value_only b1 v2 = add b1 KeyHolder.NonCollapsible v2 :=
      rfl
    rw [heq2, add_of_not_full _ _ hfull2]
    have hclean1 : b1.clean_up = b1 := clean_up_eq_self b1 (by omega)
    rw [hclean1]
    have hWF2 : (store b1 KeyHolder.NonCollapsible v2).WF :=
      store_WF hWF1 (by omega) (by omega) (hnc _)
    have hsc2 := store_counters b1 KeyHolder.NonCollapsible v2
    set b2 := store b1 KeyHolder.NonCollapsible v2 with hb2
    have e2n : b2.next_write = b.next_write + 2 := by
      rw [hsc2.1, e1n]
    have e2r : b2.last_read = b.last_read := by
      rw [hsc2.2.2.2.2.2.2.1, e1r]
    obtain ⟨l, c, hfill, hmap, _⟩ :=
      fill_spec hWF2 b2.next_write (by omega) (by omega)
    rw [e2n, e2r] at hmap
    refine ⟨rfl, rfl, l, c, hfill, ?_, ?_⟩
    · have hval : b2.valAt b.next_write = some v1 := by
        have hfr := store_frame hWF1 KeyHolder.NonCollapsible v2
          (by omega) (p := b.next_write) (by omega) (by omega)
        rw [hfr.2]
        have hnew := store_new_slot hWFc KeyHolder.NonCollapsible v1
        rw [hcc.1] at hnew
        exact hnew.2
      apply getElem_of_map_some hmap
      have hjn : b.size < b.next_write + 2 - b.last_read - 1 := by omega
      rw [List.getElem?_map, List.getElem?_range' _ _ hjn]
      simp only [Option.map_some, Nat.one_mul]
      rw [show b.last_read + 1 + b.size = b.next_write by omega]
      exact congrArg some hval
    · have hval : b2.valAt (b.next_write + 1) = some v2 := by
        have hv := (store_new_slot hWF1 KeyHolder.NonCollapsible v2).2
        rw [e1n] at hv
        exact hv
      apply getElem_of_map_some hmap
      have hjn : b.size + 1 < b.next_write + 2 - b.last_read - 1 := by omega
      rw [List.getElem?_map, List.getElem?_range' _ _ hjn]
      simp only [Option.map_some, Nat.one_mul]
      rw [show b.last_read + 1 + (b.size + 1) = b.next_write + 1 by omega]
      exact congrArg some hval
  · intro k w p hp1 hp2 hkey
    cases hscan : b.scan (KeyHolder.NonEmpty k) b.first_write b.next_write with
    | some q =>
        have hb := scan_eq_some_bound hscan
        have heq := offer_of_firstMatch hscan w
        rw [heq]
        have hqp : p ≠ q := by
          intro h
          rw [h, hb.2.2] at hkey
          cases hkey
        constructor
        · rw [set_value_keyAt]
          exact hkey
        · exact set_value_valAt_ne hWF (by omega) hb.2.1 (by omega) hp2 hqp w
    | none =>
        have heq : offer b k w = add b (KeyHolder.NonEmpty k) w := by
          simp only [offer, hscan]
        rw [heq]
        by_cases hfull : b.size = b.capacity
        · rw [add_of_full _ _ hfull]
          exact ⟨hkey, rfl⟩
        · rw [add_of_not_full _ _ hfull]
          have hcl := clean_up_live hWF (p := p) (by omega) hp2
          have hfr := store_frame hWFc (KeyHolder.NonEmpty k) w
            (by omega) (p := p)
            (by rw [hcc.2.2.2.2.2.1]; omega) (by rw [hcc.1]; omega)
          rw [hfr.1, hfr.2, hcl.1, hcl.2]
          exact ⟨hkey, rfl⟩

/-- C5, witness: two keyless offers of 10 then 20 on a fresh capacity-4
buffer are both delivered, in order. -/
theorem C5_value_only_witness :
    (offer_value_only (new 4 : CoalescingRingBuffer Nat Nat) 10).1 = true ∧
    (offer_value_only (offer_value_only
      (new 4 : CoalescingRingBuffer Nat Nat) 10).2 20).1 = true ∧
    ∃ l c, poll_all (offer_value_only (offer_value_only
        (new 4 : CoalescingRingBuffer Nat Nat) 10).2 20).2 = some (l, c) ∧
      l[(new 4 : CoalescingRingBuffer Nat Nat).size]? = some 10 ∧
      l[(new 4 : CoalescingRingBuffer Nat Nat).size + 1]? = some 20 :=
  (C5_value_only (by decide) 10 20 (by decide)).1

end CoalescingRingBuffer

namespace CoalescingRingBuffer

/-- Capacity-2 buffer holding the same value 7 twice (two keyless offers). -/
def exDup : CoalescingRingBuffer Nat Nat :=
  (offer_value_only (offer_value_only (new 2) 7).2 7).2

/-- Capacity-2 buffer holding the distinct values 1 and 2. -/
def exTwo : CoalescingRingBuffer Nat Nat :=
  (offer_value_only (offer_value_only (new 2) 1).2 2).2

/-- Capacity-4 buffer with key 1 in flight at position 1 holding value 10. -/
def exRace : CoalescingRingBuffer Nat Nat :=
  (offer (new 4) 1 10).2

/-- C7, counterexample: read at the level of values, the claim fails when
the same value was placed twice: on `exDup` (value 7 enqueued twice) the
first `poll 1` returns `S = [7]` and the immediately subsequent `poll 1`
on the resulting state returns `[7]` again - an element of `S`.  Only the
stored instances (slot positions) are delivered at most once. -/
theorem C7_counterexample :
    (poll exDup 1).map Prod.fst = some [7] ∧
    ((poll exDup 1).bind fun r => (poll r.2 1).map Prod.fst) = some [7] ∧
    (7 : Nat) ∈ [(7 : Nat)] :=
  ⟨by decide, by decide, by decide⟩

/-- C7, amended: subsequent polls drain disjoint position ranges, so no
stored instance is ever delivered twice; stated at the level of values,
when the values in flight are pairwise distinct (distinct instances), no
element of a poll's result is returned by the next `poll` or `poll_all` on
the resulting state. -/
theorem C7_no_redelivery {K V : Type} [DecidableEq K]
    {b : CoalescingRingBuffer K V} (hWF : b.WF)
    (hnodup : ((List.range' (b.last_read + 1) b.size).map
      (fun q => b.valAt q)).Nodup) (m m' : Nat) :
    ∃ S b', poll b m = some (S, b') ∧
      (∃ S' b'', poll b' m' = some (S', b'') ∧ ∀ v ∈ S, v ∉ S') ∧
      (∃ T' c'', poll_all b' = some (T', c'') ∧ ∀ v ∈ S, v ∉ T') := by
  have h6 := hWF.2.2.2.2.2.1
  have h7 := hWF.2.2.2.2.2.2.1
  have hsz : b.size = b.next_write - b.last_read - 1 := rfl
  set claim := min (b.first_write + m) b.next_write with hclaim
  have hcl1 : b.last_read + 1 ≤ claim := by omega
  have hcl2 : claim ≤ b.next_write := by omega
  obtain ⟨S, b', hfill1, hmap1, e1, e2, e3, e4, e5, e6, e7, e8, hdr, hfr,
    hWF'⟩ := fill_spec hWF claim hcl1 hcl2
  rw [hsz] at hnodup
  have hsplit := List.range'_append_1 (b.last_read + 1)
    (claim - b.last_read - 1) (b.next_write - claim)
  rw [show b.last_read + 1 + (claim - b.last_read - 1) = claim by omega,
    show b.next_write - claim + (claim - b.last_read - 1)
      = b.next_write - b.last_read - 1 by omega] at hsplit
  rw [← hsplit, List.map_append, List.nodup_append] at hnodup
  have hdisj := hnodup.2.2
  -- any value a later fill on `b'` can deliver sits in the second block
  have hblock : ∀ (c2 : Nat), claim ≤ c2 → c2 ≤ b.next_write →
      ∀ (S' : List V) b'', fill b' c2 = some (S', b'') →
      ∀ v ∈ S, v ∉ S' := by
    intro c2 hc21 hc22 S' b'' hfill2 v hvS hvS'
    obtain ⟨S2, b2, hfill2', hmap2, _⟩ := fill_spec hWF' c2
      (by omega) (by omega)
    rw [hfill2] at hfill2'
    have hS2 : S2 = S' := by
      cases hfill2'
      rfl
    rw [hS2] at hmap2
    have hv1 : some v ∈ ((List.range' (b.last_read + 1)
        (claim - b.last_read - 1)).map (fun q => b.valAt q)) := by
      rw [← hmap1]
      exact List.mem_map.2 ⟨v, hvS, rfl⟩
    have hv2 : some v ∈ ((List.range' claim (b.next_write - claim)).map
        (fun q => b.valAt q)) := by
      have hmem : some v ∈ S'.map some := List.mem_map.2 ⟨v, hvS', rfl⟩
      rw [hmap2] at hmem
      obtain ⟨q, hqmem, hqv⟩ := List.mem_map.1 hmem
      rw [List.mem_range'] at hqmem
      obtain ⟨i, hi1, hi2⟩ := hqmem
      have hq1 : claim ≤ q := by omega
      have hq2 : q < b.next_write := by omega
      refine List.mem_map.2 ⟨q, ?_, ?_⟩
      · rw [List.mem_range']
        exact ⟨q - claim, by omega, by omega⟩
      · rw [← hfr q hq1 hq2]
        exact hqv
    exact hdisj hv1 hv2
  refine ⟨S, b', hfill1, ?_, ?_⟩
  · obtain ⟨S', b'', hfill2, _⟩ := fill_spec hWF'
      (min (b'.first_write + m') b'.next_write)
      (by omega) (by omega)
    refine ⟨S', b'', by rw [poll_eq_fill]; exact hfill2, ?_⟩
    exact hblock _ (by omega) (by omega) S' b'' hfill2
  · obtain ⟨T', c'', hfill2, _⟩ := fill_spec hWF' b'.next_write
      (by omega) (by omega)
    refine ⟨T', c'', by rw [poll_all_eq_fill]; exact hfill2, ?_⟩
    exact hblock _ (by omega) (by omega) T' c'' hfill2

/-- C7, witness: with the distinct values 1 and 2 in flight, the element
returned by `poll 1` is never returned again. -/
theorem C7_no_redelivery_witness :
    ∃ S b', poll exTwo 1 = some (S, b') ∧
      (∃ S' b'', poll b' 1 = some (S', b'') ∧ ∀ v ∈ S, v ∉ S') ∧
      (∃ T' c'', poll_all b' = some (T', c'') ∧ ∀ v ∈ S, v ∉ T') :=
  C7_no_redelivery (by decide) (by decide) 1 1

/-- C9: the coalesce-after-claim race in `src/ring`'s `offer`, with the
consumer's concurrently published `first_write = 2` arriving between the
producer's key match at position 1 and its re-read.  The claim (and spec
section 4.2, which section 9 designates as canonical) says the producer
restores the prior value with a compare-and-swap before falling through to
append; in `src/ring` that CAS is commented out, so the freshly stored
value 20 is left in the claimed slot (the prior value 10 is dropped) and
20 is appended again - 20 can reach the consumer twice and 10 is lost.
The sibling `src/ring_buffer` revision does run the CAS and restores 10,
as the claim describes; the `src/ring` code is the slip. -/
theorem C9_race_divergence :
    ((offer_racy exRace 1 20 2).1 = true ∧
      (offer_racy exRace 1 20 2).2.valAt 1 = some 20 ∧
      (offer_racy exRace 1 20 2).2.next_write = 3 ∧
      (offer_racy exRace 1 20 2).2.valAt 2 = some 20) ∧
    ((offer_racy_rb exRace 1 20 2).2.valAt 1 = some 10 ∧
      (offer_racy_rb exRace 1 20 2).2.valAt 2 = some 20) :=
  ⟨⟨by decide, by decide, by decide, by decide⟩, by decide, by decide⟩

end CoalescingRingBuffer
